import Mathlib

/-!
Verification development for PodcastRepeater (src/PodcastRepeater.py).

The program is a feed-to-site pipeline: fetch an RSS feed over HTTP, parse
it into a nested mapping (xmltodict), extract enclosure-bearing items as
episodes, download audio and cover art (skip-on-exists), and render a
sitemap, front page and per-episode pages from templates.

The shallow embedding below models:
  - the xmltodict nested mapping as `JVal` (strings, ordered key/value
    objects, arrays), with Python subscript / `in` / assignment semantics
    (`KeyError` on a missing dict key, `TypeError` on subscripting a
    non-dict);
  - the filesystem as an association list from path to file contents;
  - HTTP, the XML parser, the markdown renderer, image codecs and the
    Jinja templates as explicit function parameters (they are external
    libraries, not code of this repository);
  - `slugify`, `urlparse`/`basename` and PIL's `thumbnail`, which are
    library calls whose behaviour the spec pins down, as executable
    definitions modelled from the spec's words (marked in doc comments).

Each function of the source file keeps its Python name.
-/

/-! ### Association lists (Python dict with insertion order) -/

/-- Insert or overwrite a key in an ordered association list.  Overwriting
keeps the key's position; a new key is appended at the end, matching the
insertion-order semantics of a Python dict assignment `d[k] = v`. -/
def setKey {α : Type} : List (String × α) → String → α → List (String × α)
  | [], k, v => [(k, v)]
  | (k', v') :: rest, k, v =>
    if k' = k then (k, v) :: rest else (k', v') :: setKey rest k v

/-- Look up a key in an association list (first match). -/
def getKey {α : Type} : List (String × α) → String → Option α
  | [], _ => none
  | (k', v') :: rest, k => if k' = k then some v' else getKey rest k

/-! ### The xmltodict nested mapping and Python access semantics -/

/-- Nested mapping produced by `xmltodict.parse`: a tree of strings,
ordered string-keyed objects (Python dicts) and arrays (Python lists). -/
inductive JVal where
  | str : String → JVal
  | obj : List (String × JVal) → JVal
  | arr : List JVal → JVal

/-- Python exception classes that the pipeline can raise, plus the two
library failures (network and XML parse errors) that propagate through it.
`make_site` catches exactly `keyError` around `process_episodes`. -/
inductive RunErr where
  | keyError
  | typeError
  | netError
  | xmlError
deriving DecidableEq

/-- Pure lookup `v[k]` returning `none` when `v` is not an object or lacks
the key. -/
def JVal.get (v : JVal) (k : String) : Option JVal :=
  match v with
  | .obj fs => getKey fs k
  | _ => none

/-- Python subscript `v[k]` with a string key: on a dict it raises
`KeyError` when the key is missing; on a string or list it raises
`TypeError` (string/list indices must be integers). -/
def subscriptE (v : JVal) (k : String) : Except RunErr JVal :=
  match v with
  | .obj fs =>
    match getKey fs k with
    | some x => Except.ok x
    | none => Except.error RunErr.keyError
  | _ => Except.error RunErr.typeError

/-- Python item assignment `v[k] = x`: allowed on a dict (insert or
overwrite, insertion order preserved), `TypeError` on anything else. -/
def setE (v : JVal) (k : String) (x : JVal) : Except RunErr JVal :=
  match v with
  | .obj fs => Except.ok (.obj (setKey fs k x))
  | _ => Except.error RunErr.typeError

/-- Python equality test of a value against a string (`x == 'enclosure'`):
true only for an equal string, false for dicts and lists. -/
def isStrEq (v : JVal) (k : String) : Bool :=
  match v with
  | .str s => s = k
  | _ => false

/-- Boolean infix test on character lists (`needle in haystack` for
Python strings). -/
def infixOf (p : List Char) : List Char → Bool
  | [] => p.isEmpty
  | c :: t => p.isPrefixOf (c :: t) || infixOf p t

/-- Python membership `k in v`: key membership on a dict, element
equality on a list, substring test on a string. -/
def pyContains (v : JVal) (k : String) : Bool :=
  match v with
  | .obj fs => (getKey fs k).isSome
  | .arr xs => xs.any (fun x => isStrEq x k)
  | .str s => infixOf k.toList s.toList

/-- Python iteration `for item in v`: the elements of a list, the keys of
a dict, the one-character strings of a string. -/
def iterElems (v : JVal) : List JVal :=
  match v with
  | .arr xs => xs
  | .obj fs => fs.map (fun p => JVal.str p.1)
  | .str s => s.toList.map (fun c => JVal.str (String.mk [c]))

/-- Extract the string payload; Python library calls that require a `str`
argument fail on anything else (modelled uniformly as `TypeError`). -/
def asStrE (v : JVal) : Except RunErr String :=
  match v with
  | .str s => Except.ok s
  | _ => Except.error RunErr.typeError

/-! ### Filesystem model -/

/-- The on-disk state relevant to the pipeline: a map from file path to
file contents (directories are created unconditionally by the source and
carry no data, so only files are tracked). -/
abbrev FS := List (String × String)

/-- Contents of the file at a path, if present. -/
def FS.get (fs : FS) (p : String) : Option String := getKey fs p

/-- The `os.path.exists` check on a file path. -/
def FS.existsP (fs : FS) (p : String) : Bool := (FS.get fs p).isSome

/-- Writing a file (`open(path, 'w').write(content)`): creates or
truncates-and-overwrites. -/
def FS.write (fs : FS) (p c : String) : FS := setKey fs p c

/-- Check whether a path string starts with a slash (is absolute). -/
def startsSlash (s : String) : Bool :=
  match s.toList with
  | '/' :: _ => true
  | _ => false

/-- Check whether a path string ends with a slash. -/
def endsSlash (s : String) : Bool :=
  match s.toList.reverse with
  | '/' :: _ => true
  | _ => false

/-- POSIX `os.path.join` for the cases the program exercises: an absolute
second component replaces the first, otherwise the components are joined
with a single separator. -/
def osJoin (a b : String) : String :=
  if startsSlash b then b
  else if a = "" then b
  else if endsSlash a then a ++ b
  else a ++ "/" ++ b

/-! ### Slug derivation (the `slugify` library call) -/

/-- ASCII decimal digit. -/
def isDigitA (c : Char) : Bool := 48 ≤ c.toNat && c.toNat ≤ 57

/-- ASCII lowercase letter. -/
def isLowerA (c : Char) : Bool := 97 ≤ c.toNat && c.toNat ≤ 122

/-- ASCII uppercase letter. -/
def isUpperA (c : Char) : Bool := 65 ≤ c.toNat && c.toNat ≤ 90

/-- ASCII letter. -/
def isAlphaA (c : Char) : Bool := isLowerA c || isUpperA c

/-- ASCII letter or digit. -/
def isAlnumA (c : Char) : Bool := isDigitA c || isLowerA c || isUpperA c

/-- ASCII lowercasing (uppercase letters shifted by 32, all else fixed). -/
def lowerChar (c : Char) : Char :=
  if 65 ≤ c.toNat ∧ c.toNat ≤ 90 then Char.ofNat (c.toNat + 32) else c

/-- Split a character list into the maximal runs of characters that do
not satisfy the separator predicate `p`; `cur` is the current run,
accumulated in reverse.  Runs are emitted nonempty, so consecutive
separators collapse and leading/trailing separators vanish. -/
def wordsByAux (p : Char → Bool) : List Char → List Char → List (List Char)
  | [], cur => if cur.isEmpty then [] else [cur.reverse]
  | c :: cs, cur =>
    if p c then
      if cur.isEmpty then wordsByAux p cs []
      else cur.reverse :: wordsByAux p cs []
    else wordsByAux p cs (c :: cur)

/-- Maximal separator-free runs of a character list. -/
def wordsBy (p : Char → Bool) (l : List Char) : List (List Char) := wordsByAux p l []

/-- Join words with a single dash separator. -/
def joinDash : List (List Char) → List Char
  | [] => []
  | [w] => w
  | w :: w' :: ws => w ++ '-' :: joinDash (w' :: ws)

/-- Slug derivation on character lists: lowercase everything, split into
alphanumeric runs (collapsing every non-alphanumeric run), and rejoin the
runs with single dashes. -/
def slugifyL (l : List Char) : List Char :=
  joinDash (wordsBy (fun c => !isAlnumA c) (l.map lowerChar))

/-- Modelled from the spec: the `slugify` library call (python-slugify is
an external dependency, not code of this repository).  Per the spec, the
derived slug is the lowercased title with non-alphanumeric runs collapsed
to a single separator and leading/trailing separators trimmed. -/
def slugify (s : String) : String := String.mk (slugifyL s.toList)

/-- Check that no two consecutive characters are both dashes (separator
runs are collapsed). -/
def noDoubleDash : List Char → Bool
  | [] => true
  | [_] => true
  | a :: b :: t => !(a == '-' && b == '-') && noDoubleDash (b :: t)

/-! ### Local file name derivation (`urlparse(...)`.path and `os.path.basename`) -/

/-- Characters allowed in a URL scheme (`urllib.parse.scheme_chars`). -/
def schemeChar (c : Char) : Bool := isAlnumA c || c = '+' || c = '-' || c = '.'

/-- Modelled from the spec and the documented behaviour of
`urllib.parse.urlsplit` (Python standard library, not code of this
repository): drop a leading `scheme:` when the text before the first
colon is a nonempty run of scheme characters starting with a letter. -/
def stripScheme (u : List Char) : List Char :=
  let pre := u.takeWhile (fun c => c ≠ ':')
  if pre.length < u.length ∧ pre ≠ [] ∧ isAlphaA pre.headI ∧ pre.all schemeChar then
    u.drop (pre.length + 1)
  else u

/-- Character ending the network-location part of a URL. -/
def netlocDelim (c : Char) : Bool := c = '/' || c = '?' || c = '#'

/-- Drop a leading `//netloc` (everything after `//` up to the first of
`/`, `?` or `#`). -/
def stripNetloc (u : List Char) : List Char :=
  match u with
  | '/' :: '/' :: rest => rest.dropWhile (fun c => !netlocDelim c)
  | _ => u

/-- The `path` component of `urlparse`: strip scheme, then netloc, then
the fragment (first `#` onwards), then the query (first `?` onwards). -/
def urlPath (url : List Char) : List Char :=
  ((stripNetloc (stripScheme url)).takeWhile (fun c => c ≠ '#')).takeWhile (fun c => c ≠ '?')

/-- POSIX `os.path.basename`: everything after the last `/`. -/
def basenameL (l : List Char) : List Char :=
  (l.reverse.takeWhile (fun c => c ≠ '/')).reverse

/-- Derivation of the local file name used by the source
(`os.path.basename(urlparse(item['url']).path)`). -/
def fileNameOf (url : String) : String := String.mk (basenameL (urlPath url.toList))

/-- Spec-side file name: the final path segment of the URL with any query
string and fragment excluded (cut at the first `?` or `#`, then take the
last `/`-separated segment). -/
def specFileName (url : String) : String :=
  String.mk (basenameL (url.toList.takeWhile (fun c => !(c == '?' || c == '#'))))

/-! ### Episode extraction (`process_episodes`, source lines 51-62)

Python mutates each item dict in place and appends the same (mutated)
object to the episodes list.  The embedding passes the item state
explicitly: `bindSt` threads the last committed item state past a failing
lookup, so that on an exception the partially mutated item is what
remains in the feed mapping, exactly as in Python. -/

/-- Sequence an exception-throwing step while remembering the last
committed state `st` (returned unchanged when the step raises). -/
def bindSt {α β : Type} (st : JVal) (x : Except RunErr α)
    (f : α → JVal × Except RunErr β) : JVal × Except RunErr β :=
  match x with
  | Except.error e => (st, Except.error e)
  | Except.ok a => f a

/-- Body of the `for item in ...` loop of `process_episodes`: when the
item has an enclosure, set `url`, `slug`, `description` (rendered through
the markdown library call `md`) and `file_name` on the item, and return
the mutated item also as the episode record; otherwise leave the item
untouched and produce no episode.  The first component is the item's
state after the iteration (partial on an exception). -/
def processItem (md : String → String) (item : JVal) : JVal × Except RunErr (Option JVal) :=
  if pyContains item "enclosure" then
    bindSt item (subscriptE item "enclosure") fun encl =>
    bindSt item (subscriptE encl "@url") fun url =>
    bindSt item (setE item "url" url) fun item1 =>
    bindSt item1 (subscriptE item1 "title") fun t =>
    bindSt item1 (asStrE t) fun ts =>
    bindSt item1 (setE item1 "slug" (JVal.str (slugify ts))) fun item2 =>
    bindSt item2 (subscriptE item2 "description") fun d =>
    bindSt item2 (asStrE d) fun ds =>
    bindSt item2 (setE item2 "description" (JVal.str (md ds))) fun item3 =>
    bindSt item3 (subscriptE item3 "url") fun u =>
    bindSt item3 (asStrE u) fun us =>
    bindSt item3 (setE item3 "file_name" (JVal.str (fileNameOf us))) fun item4 =>
    (item4, Except.ok (some item4))
  else (item, Except.ok none)

/-- The whole loop: first component is the item list after the loop
(mutated up to and including the failing item, untouched beyond it);
second is the collected episode list, or the exception that escaped. -/
def processItems (md : String → String) : List JVal → List JVal × Except RunErr (List JVal)
  | [] => ([], Except.ok [])
  | it :: rest =>
    match processItem md it with
    | (it', Except.error e) => (it' :: rest, Except.error e)
    | (it', Except.ok none) =>
      let out := processItems md rest
      (it' :: out.1, out.2)
    | (it', Except.ok (some ep)) =>
      let out := processItems md rest
      (it' :: out.1, out.2.map (fun eps => ep :: eps))

/-- Rebuild the feed mapping with a new value for
`podcast['rss']['channel']['item']` (the in-place list mutation seen
through the enclosing dicts).  No-op when the path is absent. -/
def updateItemList (p : JVal) (newItems : JVal) : JVal :=
  match p with
  | .obj pf =>
    match getKey pf "rss" with
    | some (.obj rf) =>
      match getKey rf "channel" with
      | some (.obj cf) =>
        .obj (setKey pf "rss" (.obj (setKey rf "channel" (.obj (setKey cf "item" newItems)))))
      | _ => p
    | _ => p
  | _ => p

/-- `process_episodes` (source lines 51-62): iterate
`podcast['rss']['channel']['item']`, collecting one mutated episode
record per enclosure-bearing item, in feed order.  Returns the feed
mapping after the call (Python mutates it in place) and the episode list
or the escaped exception. -/
def process_episodes (md : String → String) (podcast : JVal) : JVal × Except RunErr (List JVal) :=
  match subscriptE podcast "rss" with
  | Except.error e => (podcast, Except.error e)
  | Except.ok rss =>
    match subscriptE rss "channel" with
    | Except.error e => (podcast, Except.error e)
    | Except.ok ch =>
      match subscriptE ch "item" with
      | Except.error e => (podcast, Except.error e)
      | Except.ok itemsVal =>
        match itemsVal with
        | .arr items =>
          let out := processItems md items
          (updateItemList podcast (.arr out.1), out.2)
        | other =>
          -- iterating a dict yields fresh key strings, iterating a string
          -- yields fresh one-character strings: the feed mapping itself is
          -- not reachable through the loop variable, so it is unchanged.
          (podcast, (processItems md (iterElems other)).2)

/-! ### Feed fetch and parse (`download_and_parse_feed`, source lines 67-72) -/

/-- An HTTP response as the `requests` library presents it: a status
code, the decoded text and the raw body bytes.  `requests.get` raises a
connection error on an unreachable host (the `Except.error` case of the
`http` parameter) and returns the response otherwise, whatever the
status code. -/
structure Response where
  status : Nat
  text : String
  content : String

/-- `download_and_parse_feed` (source lines 67-72): GET the feed URL and
feed `r.text` to `xmltodict.parse` (the `parseXml` parameter).  The
status code is never consulted. -/
def download_and_parse_feed (http : String → Except Unit Response)
    (parseXml : String → Except Unit JVal) (url : String) : Except RunErr JVal :=
  match http url with
  | Except.error _ => Except.error RunErr.netError
  | Except.ok r =>
    match parseXml r.text with
    | Except.error _ => Except.error RunErr.xmlError
    | Except.ok podcast => Except.ok podcast

/-! ### Audio downloads (`download_audio_files`, source lines 74-81) -/

/-- `download_audio_files` (source lines 74-81): for each episode compute
`<output>/audio/<file_name>`; skip it when the path exists, otherwise GET
`episode['enclosure']['@url']` and write `r.content` there.  The second
result component logs every performed GET as a `(path, url)` pair, in
order.  Exceptions (missing episode fields, network failure) propagate. -/
def download_audio_files (http : String → Except Unit Response) (output_dir : String) :
    List JVal → FS → Except RunErr (FS × List (String × String))
  | [], fs => Except.ok (fs, [])
  | e :: rest, fs =>
    match subscriptE e "file_name" with
    | Except.error err => Except.error err
    | Except.ok fv =>
      match asStrE fv with
      | Except.error err => Except.error err
      | Except.ok fname =>
        let p := osJoin (osJoin output_dir "audio") fname
        if FS.existsP fs p then download_audio_files http output_dir rest fs
        else
          match subscriptE e "enclosure" with
          | Except.error err => Except.error err
          | Except.ok encl =>
            match subscriptE encl "@url" with
            | Except.error err => Except.error err
            | Except.ok uv =>
              match asStrE uv with
              | Except.error err => Except.error err
              | Except.ok u =>
                match http u with
                | Except.error _ => Except.error RunErr.netError
                | Except.ok r =>
                  match download_audio_files http output_dir rest (FS.write fs p r.content) with
                  | Except.error err => Except.error err
                  | Except.ok out => Except.ok (out.1, (p, u) :: out.2)

/-! ### Cover art (`download_and_resize_cover_image`, source lines 84-96) -/

/-- A decoded raster image: its pixel dimensions (kept as rationals so
that exact aspect-ratio statements can be made) plus opaque pixel data. -/
structure Img where
  w : ℚ
  h : ℚ
  dat : String

/-- Modelled from the spec: PIL's `Image.thumbnail((b, b))` (PIL is an
external dependency, not code of this repository).  Per the spec, the
image is bounded to `b` by `b` preserving the aspect ratio, downscale only:
an image already within the bound is untouched, otherwise both sides are
scaled by `b / max w h`. -/
def pilThumbnail (img : Img) (b : ℚ) : Img :=
  if img.w ≤ b ∧ img.h ≤ b then img
  else { img with w := img.w * b / max img.w img.h, h := img.h * b / max img.w img.h }

/-- `download_and_resize_cover_image` (source lines 84-96): skip
everything when `<output>/cover_art.jpg` exists; otherwise GET the cover
URL, decode it, save the full-size image, shrink it in place with
`thumbnail((1000, 1000))` and save the result as
`<output>/small_cover_art.jpg`.  `decodeImg`, `encodeImg` and
`encodeImgSmall` stand for the PIL codec calls (`Image.open`,
`img.save(...)`, `img.save(..., optimize=True)`); the second result
component logs the performed GETs, the third is the thumbnail image that
was produced, if any. -/
def download_and_resize_cover_image (http : String → Except Unit Response)
    (decodeImg : String → Img) (encodeImg encodeImgSmall : Img → String)
    (output_dir cover_art_url : String) (fs : FS) :
    Except RunErr (FS × List String × Option Img) :=
  let cover_art_path := osJoin output_dir "cover_art.jpg"
  let small_cover_art_path := osJoin output_dir "small_cover_art.jpg"
  if FS.existsP fs cover_art_path then Except.ok (fs, [], none)
  else
    match http cover_art_url with
    | Except.error _ => Except.error RunErr.netError
    | Except.ok r =>
      let img := decodeImg r.content
      let fs1 := FS.write fs cover_art_path (encodeImg img)
      let img2 := pilThumbnail img 1000
      let fs2 := FS.write fs1 small_cover_art_path (encodeImgSmall img2)
      Except.ok (fs2, [cover_art_url], some img2)

/-! ### Rendering (source lines 116-143) -/

/-- The run configuration: the three keys the core reads from the JSON
config file. -/
structure Config where
  feed_URL : String
  output_dir : String
  theme_dir : String

/-- `render_sitemap` (source lines 138-143): render the `sitemap.xml`
template (the `tpl` parameter, standing for the Jinja environment's
template looked up by name and rendered with config + episodes) and write
it to `<output>/sitemap.xml`, unconditionally. -/
def render_sitemap (tpl : Config → List JVal → String) (config : Config)
    (episodes : List JVal) (fs : FS) : FS :=
  FS.write fs (osJoin config.output_dir "sitemap.xml") (tpl config episodes)

/-- `render_front_page` (source lines 130-136): render the
`frontpage.html` theme template with config + episodes + podcast and
write it to `<output>/index.html`, unconditionally. -/
def render_front_page (tpl : Config → List JVal → JVal → String) (config : Config)
    (episodes : List JVal) (podcast : JVal) (fs : FS) : FS :=
  FS.write fs (osJoin config.output_dir "index.html") (tpl config episodes podcast)

/-- Destination path of one rendered episode page:
`<output>/episode/<slug>/index.html`. -/
def episodePagePath (output_dir slug : String) : String :=
  osJoin (osJoin (osJoin output_dir "episode") slug) "index.html"

/-- `render_episodes` (source lines 116-127): for each episode, create
its directory (untracked) and write the rendered `episode.html` theme
template to `<output>/episode/<slug>/index.html`, unconditionally.  The
`episode['slug']` lookup raises on a malformed episode record. -/
def render_episodes (tpl : Config → JVal → JVal → String) (config : Config) :
    List JVal → JVal → FS → Except RunErr FS
  | [], _, fs => Except.ok fs
  | e :: rest, podcast, fs =>
    match subscriptE e "slug" with
    | Except.error err => Except.error err
    | Except.ok sv =>
      match asStrE sv with
      | Except.error err => Except.error err
      | Except.ok slug =>
        let fs1 := FS.write fs (episodePagePath config.output_dir slug) (tpl config e podcast)
        render_episodes tpl config rest podcast fs1

/-! ### The whole pipeline (`make_site`, source lines 32-48) -/

/-- The external collaborators of the pipeline, passed as explicit
functions: the HTTP client, the XML parser, the markdown renderer, the
image codecs and the three Jinja templates. -/
structure Libs where
  http : String → Except Unit Response
  parseXml : String → Except Unit JVal
  md : String → String
  decodeImg : String → Img
  encodeImg : Img → String
  encodeImgSmall : Img → String
  sitemapTpl : Config → List JVal → String
  frontTpl : Config → List JVal → JVal → String
  episodeTpl : Config → JVal → JVal → String

/-- Observable outcome of a completed run: the final filesystem, the
audio GETs performed (as `(path, url)` pairs), the cover GETs performed,
and the episode list the run worked with. -/
structure RunOut where
  fs : FS
  audioLog : List (String × String)
  coverLog : List String
  episodes : List JVal

/-- The tail of `make_site` after episode extraction (source lines
43-48): download audio, evaluate the cover-art URL argument
`podcast['rss']['channel']['itunes:image']['@href']` (outside any
`try`), download/resize cover art, then render sitemap, front page and
episode pages in that order. -/
def site_rest (E : Libs) (config : Config) (podcast : JVal) (episodes : List JVal)
    (fs : FS) : Except RunErr RunOut :=
  match download_audio_files E.http config.output_dir episodes fs with
  | Except.error err => Except.error err
  | Except.ok (fs1, alog) =>
    match subscriptE podcast "rss" with
    | Except.error err => Except.error err
    | Except.ok rss =>
      match subscriptE rss "channel" with
      | Except.error err => Except.error err
      | Except.ok ch =>
        match subscriptE ch "itunes:image" with
        | Except.error err => Except.error err
        | Except.ok im =>
          match subscriptE im "@href" with
          | Except.error err => Except.error err
          | Except.ok href =>
            match asStrE href with
            | Except.error err => Except.error err
            | Except.ok coverUrl =>
              match download_and_resize_cover_image E.http E.decodeImg E.encodeImg
                  E.encodeImgSmall config.output_dir coverUrl fs1 with
              | Except.error err => Except.error err
              | Except.ok (fs2, clog, _) =>
                let fs3 := render_sitemap E.sitemapTpl config episodes fs2
                let fs4 := render_front_page E.frontTpl config episodes podcast fs3
                match render_episodes E.episodeTpl config episodes podcast fs4 with
                | Except.error err => Except.error err
                | Except.ok fs5 => Except.ok ⟨fs5, alog, clog, episodes⟩

/-- `make_site` (source lines 32-48): fetch and parse the feed, extract
episodes — where a `KeyError` (and only a `KeyError`) is swallowed and
replaced by the empty episode list, with the feed mapping keeping
whatever mutations had been committed — then run the rest of the
pipeline. -/
def make_site (E : Libs) (config : Config) (fs : FS) : Except RunErr RunOut :=
  match download_and_parse_feed E.http E.parseXml config.feed_URL with
  | Except.error err => Except.error err
  | Except.ok podcast =>
    match process_episodes E.md podcast with
    | (podcast', Except.ok episodes) => site_rest E config podcast' episodes fs
    | (podcast', Except.error RunErr.keyError) => site_rest E config podcast' [] fs
    | (_, Except.error err) => Except.error err

/-! ### Concrete fixtures used by witnesses and counterexamples -/

/-- Identity markdown renderer for concrete runs. -/
def mdId : String → String := fun s => s

/-- Enclosure of the first fixture item. -/
def enc1 : JVal := JVal.obj [("@url", JVal.str "https://cdn.example/ep1.mp3?token=abc")]

/-- Fixture item bearing an enclosure (the spec's end-to-end scenario). -/
def item1 : JVal :=
  JVal.obj [("title", JVal.str "Episode One!"), ("description", JVal.str "d1"),
    ("enclosure", enc1)]

/-- Fixture item without an enclosure. -/
def item2 : JVal :=
  JVal.obj [("title", JVal.str "Episode Two"), ("description", JVal.str "d2")]

/-- Fixture channel with cover art metadata and a two-item list. -/
def chan1 : JVal :=
  JVal.obj [("itunes:image", JVal.obj [("@href", JVal.str "https://cdn.example/cover.jpg")]),
    ("item", JVal.arr [item1, item2])]

/-- Fixture feed mapping. -/
def feed1 : JVal := JVal.obj [("rss", JVal.obj [("channel", chan1)])]

/-- The first fixture item as `process_episodes` leaves it: `description`
rewritten in place (identity markdown), `url`, `slug` and `file_name`
appended in insertion order. -/
def item1' : JVal :=
  JVal.obj [("title", JVal.str "Episode One!"), ("description", JVal.str "d1"),
    ("enclosure", enc1),
    ("url", JVal.str "https://cdn.example/ep1.mp3?token=abc"),
    ("slug", JVal.str "episode-one"),
    ("file_name", JVal.str "ep1.mp3")]

/-- The fixture feed after episode extraction. -/
def feed1' : JVal :=
  JVal.obj [("rss", JVal.obj [("channel",
    JVal.obj [("itunes:image", JVal.obj [("@href", JVal.str "https://cdn.example/cover.jpg")]),
      ("item", JVal.arr [item1', item2])])])]

/-- Fixture configuration. -/
def cfg1 : Config := ⟨"http://feed.example/rss", "out", "theme"⟩

/-- An HTTP stub returning status 200 with the given body for every URL. -/
def httpConst (b : String) : String → Except Unit Response :=
  fun _ => Except.ok ⟨200, b, b⟩

/-- Fixture item that has an enclosure but no title (malformed). -/
def itemBad : JVal :=
  JVal.obj [("description", JVal.str "d3"),
    ("enclosure", JVal.obj [("@url", JVal.str "https://cdn.example/ep3.mp3")])]

/-- Fixture feed whose item list mixes a well-formed enclosure item with
a malformed one. -/
def feedBad : JVal :=
  JVal.obj [("rss", JVal.obj [("channel",
    JVal.obj [("itunes:image", JVal.obj [("@href", JVal.str "https://cdn.example/cover.jpg")]),
      ("item", JVal.arr [item1, itemBad])])])]

/-- Fixture feed whose channel is entirely absent. -/
def feedNoChan : JVal := JVal.obj [("rss", JVal.obj [("x", JVal.str "y")])]

/-- Fixture feed with a channel (and cover metadata) but no item list. -/
def feedNoItems : JVal :=
  JVal.obj [("rss", JVal.obj [("channel",
    JVal.obj [("itunes:image",
      JVal.obj [("@href", JVal.str "https://cdn.example/cover.jpg")])])])]

/-- Observer: did the run complete? -/
def runOk (r : Except RunErr RunOut) : Bool :=
  match r with
  | Except.ok _ => true
  | Except.error _ => false

/-- Observer: the episode list of a completed run. -/
def runEpisodes (r : Except RunErr RunOut) : Option (List JVal) :=
  match r with
  | Except.ok o => some o.episodes
  | Except.error _ => none

/-- Observer: the first record of the feed's item list, if any. -/
def firstItem (p : JVal) : Option JVal :=
  match ((JVal.get p "rss").bind (fun rss => JVal.get rss "channel")).bind
      (fun ch => JVal.get ch "item") with
  | some (.arr (it :: _)) => some it
  | _ => none

/-- Fixture library bundle: total HTTP, a parser that always yields
`feed1`, identity markdown, a 2000 by 1200 image decoder and tagging
templates. -/
def libs1 : Libs where
  http := httpConst "body"
  parseXml := fun _ => Except.ok feed1
  md := mdId
  decodeImg := fun s => ⟨2000, 1200, s⟩
  encodeImg := fun i => "full:" ++ i.dat
  encodeImgSmall := fun i => "small:" ++ i.dat
  sitemapTpl := fun _ eps => "sitemap" ++ toString eps.length
  frontTpl := fun _ eps _ => "front" ++ toString eps.length
  episodeTpl := fun _ _ _ => "episodepage"

/-- Fixture libraries whose parser yields the mixed well-formed/malformed
feed. -/
def libsBad : Libs := { libs1 with parseXml := fun _ => Except.ok feedBad }

/-- Fixture libraries whose parser yields the channel-less feed. -/
def libsNoChan : Libs := { libs1 with parseXml := fun _ => Except.ok feedNoChan }

/-- Fixture libraries whose parser yields the feed without an item
list. -/
def libsNoItems : Libs := { libs1 with parseXml := fun _ => Except.ok feedNoItems }

/-! ### General lemmas about the association-list and filesystem model -/

theorem getKey_setKey_self {α : Type} (l : List (String × α)) (k : String) (v : α) :
    getKey (setKey l k v) k = some v := by
  induction l with
  | nil => simp [setKey, getKey]
  | cons hd tl ih =>
    obtain ⟨k', v'⟩ := hd
    by_cases h : k' = k
    · simp [setKey, getKey, h]
    · simp [setKey, getKey, h, ih]

theorem getKey_setKey_ne {α : Type} (l : List (String × α)) (k k' : String) (v : α)
    (h : k' ≠ k) : getKey (setKey l k v) k' = getKey l k' := by
  induction l with
  | nil => simp [setKey, getKey, Ne.symm h]
  | cons hd tl ih =>
    obtain ⟨k₀, v₀⟩ := hd
    by_cases h0 : k₀ = k
    · subst h0
      simp [setKey, getKey, Ne.symm h]
    · simp only [setKey, if_neg h0]
      by_cases h1 : k₀ = k'
      · simp [getKey, h1]
      · simp [getKey, h1, ih]

theorem FS.get_write_self (fs : FS) (p c : String) :
    FS.get (FS.write fs p c) p = some c := getKey_setKey_self fs p c

theorem FS.get_write_ne (fs : FS) (p q c : String) (h : q ≠ p) :
    FS.get (FS.write fs p c) q = FS.get fs q := getKey_setKey_ne fs p q c h

/-- Join results under a fixed head differ when the appended parts have
different lengths (and are relative). -/
theorem osJoin_ne_of_len (a : String) {b c : String} (hb : startsSlash b = false)
    (hc : startsSlash c = false) (h : b.length ≠ c.length) :
    osJoin a b ≠ osJoin a c := by
  intro heq
  apply h
  unfold osJoin at heq
  rw [hb, hc] at heq
  simp only [Bool.false_eq_true, if_false] at heq
  by_cases ha : a = ""
  · rw [if_pos ha, if_pos ha] at heq
    exact congrArg String.length heq
  · rw [if_neg ha, if_neg ha] at heq
    by_cases he : endsSlash a
    · rw [if_pos he, if_pos he] at heq
      have := congrArg String.length heq
      simp only [String.length_append] at this
      omega
    · rw [if_neg he, if_neg he] at heq
      have := congrArg String.length heq
      simp only [String.length_append] at this
      omega

/-! ### Small inversion lemmas for the Python access primitives -/

theorem get_of_subscriptE {v : JVal} {k : String} {x : JVal}
    (h : subscriptE v k = Except.ok x) : JVal.get v k = some x := by
  cases v with
  | obj fs =>
    simp only [subscriptE] at h
    cases hk : getKey fs k with
    | none => simp only [hk] at h; exact absurd h (by simp)
    | some a =>
      simp only [hk, Except.ok.injEq] at h
      simp [JVal.get, hk, h]
  | str s => simp [subscriptE] at h
  | arr xs => simp [subscriptE] at h

theorem asStrE_ok {v : JVal} {s : String} (h : asStrE v = Except.ok s) :
    v = JVal.str s := by
  cases v with
  | str t => simp only [asStrE, Except.ok.injEq] at h; rw [h]
  | obj fs => simp [asStrE] at h
  | arr xs => simp [asStrE] at h

/-! ### C4 — renders write unconditionally -/

/-- An episode-page run leaves every path untouched that is not one of
its episodes' destination paths. -/
theorem render_episodes_preserve (tpl : Config → JVal → JVal → String) (config : Config)
    (pod : JVal) : ∀ (eps : List JVal) (fs fs' : FS) (p : String),
    render_episodes tpl config eps pod fs = Except.ok fs' →
    (∀ e ∈ eps, ∀ s, JVal.get e "slug" = some (JVal.str s) →
      episodePagePath config.output_dir s ≠ p) →
    FS.get fs' p = FS.get fs p := by
  intro eps
  induction eps with
  | nil =>
    intro fs fs' p h hp
    simp only [render_episodes, Except.ok.injEq] at h
    rw [h]
  | cons e rest ih =>
    intro fs fs' p h hp
    unfold render_episodes at h
    cases hs : subscriptE e "slug" with
    | error err => simp only [hs] at h; exact absurd h (by simp)
    | ok sv =>
      simp only [hs] at h
      cases ha : asStrE sv with
      | error err => simp only [ha] at h; exact absurd h (by simp)
      | ok s =>
        simp only [ha] at h
        have hslug : JVal.get e "slug" = some (JVal.str s) := by
          rw [get_of_subscriptE hs, asStrE_ok ha]
        have hne : episodePagePath config.output_dir s ≠ p :=
          hp e (List.mem_cons_self e rest) s hslug
        have := ih _ fs' p h (fun e' he' s' hs' => hp e' (List.mem_cons_of_mem e he') s' hs')
        rw [this, FS.get_write_ne _ _ _ _ (Ne.symm hne)]

/-- An episode-page run writes each episode's freshly rendered page at
its destination path (destination paths assumed pairwise distinct). -/
theorem render_episodes_content (tpl : Config → JVal → JVal → String) (config : Config)
    (pod : JVal) : ∀ (eps : List JVal) (fs fs' : FS) (e : JVal) (s : String),
    render_episodes tpl config eps pod fs = Except.ok fs' → e ∈ eps →
    JVal.get e "slug" = some (JVal.str s) →
    eps.Pairwise (fun a b => ∀ sa sb, JVal.get a "slug" = some (JVal.str sa) →
      JVal.get b "slug" = some (JVal.str sb) →
      episodePagePath config.output_dir sa ≠ episodePagePath config.output_dir sb) →
    FS.get fs' (episodePagePath config.output_dir s) = some (tpl config e pod) := by
  intro eps
  induction eps with
  | nil =>
    intro fs fs' e s h hmem
    exact absurd hmem (List.not_mem_nil e)
  | cons e0 rest ih =>
    intro fs fs' e s h hmem hslug hpair
    unfold render_episodes at h
    cases hs : subscriptE e0 "slug" with
    | error err => simp only [hs] at h; exact absurd h (by simp)
    | ok sv =>
      simp only [hs] at h
      cases ha : asStrE sv with
      | error err => simp only [ha] at h; exact absurd h (by simp)
      | ok s0 =>
        simp only [ha] at h
        have hslug0 : JVal.get e0 "slug" = some (JVal.str s0) := by
          rw [get_of_subscriptE hs, asStrE_ok ha]
        rcases List.mem_cons.mp hmem with rfl | hmem'
        · have hs0 : s = s0 := by
            rw [hslug0] at hslug
            exact (JVal.str.injEq _ _ ▸ (Option.some.injEq _ _ ▸ hslug.symm)).symm ▸ rfl
          subst hs0
          have hpres := render_episodes_preserve tpl config pod rest _ fs'
            (episodePagePath config.output_dir s) h
            (fun e' he' s' hs' => Ne.symm ((List.pairwise_cons.mp hpair).1 e' he' s s'
              hslug hs'))
          rw [hpres, FS.get_write_self]
        · exact ih _ fs' e s h hmem' hslug (List.pairwise_cons.mp hpair).2

/-- C4: Each of the three render operations (sitemap, front page,
per-episode pages) writes its freshly rendered output to its fixed
destination path on every run, for an arbitrary starting filesystem — in
particular one where the destination file already exists, whose content
is overwritten; no render is skipped because its destination exists
(episode destination paths assumed pairwise distinct). -/
theorem render_always_overwrites
    (smTpl : Config → List JVal → String) (fpTpl : Config → List JVal → JVal → String)
    (epTpl : Config → JVal → JVal → String) (config : Config) (episodes : List JVal)
    (podcast : JVal) (fs : FS) :
    FS.get (render_sitemap smTpl config episodes fs) (osJoin config.output_dir "sitemap.xml")
        = some (smTpl config episodes)
    ∧ FS.get (render_front_page fpTpl config episodes podcast fs)
        (osJoin config.output_dir "index.html") = some (fpTpl config episodes podcast)
    ∧ (∀ fs' e s, render_episodes epTpl config episodes podcast fs = Except.ok fs' →
        e ∈ episodes → JVal.get e "slug" = some (JVal.str s) →
        episodes.Pairwise (fun a b => ∀ sa sb, JVal.get a "slug" = some (JVal.str sa) →
          JVal.get b "slug" = some (JVal.str sb) →
          episodePagePath config.output_dir sa ≠ episodePagePath config.output_dir sb) →
        FS.get fs' (episodePagePath config.output_dir s) = some (epTpl config e podcast)) := by
  refine ⟨FS.get_write_self _ _ _, FS.get_write_self _ _ _, ?_⟩
  intro fs' e s hrun hmem hslug hpair
  exact render_episodes_content epTpl config podcast episodes fs fs' e s hrun hmem hslug hpair

/-- Witness for C4 at the fixture: the three destinations start
pre-populated with stale content and each one holds the freshly rendered
output afterwards. -/
theorem render_always_overwrites_witness :
    FS.get (render_sitemap libs1.sitemapTpl cfg1 [item1']
        [(osJoin cfg1.output_dir "sitemap.xml", "stale")])
      (osJoin cfg1.output_dir "sitemap.xml") = some (libs1.sitemapTpl cfg1 [item1'])
    ∧ FS.get (render_front_page libs1.frontTpl cfg1 [item1'] feed1'
        [(osJoin cfg1.output_dir "index.html", "stale")])
      (osJoin cfg1.output_dir "index.html") = some (libs1.frontTpl cfg1 [item1'] feed1')
    ∧ FS.get [(episodePagePath "out" "episode-one", "episodepage")]
      (episodePagePath cfg1.output_dir "episode-one") = some (libs1.episodeTpl cfg1 item1' feed1') :=
  ⟨(render_always_overwrites libs1.sitemapTpl libs1.frontTpl libs1.episodeTpl cfg1 [item1']
      feed1' [(osJoin cfg1.output_dir "sitemap.xml", "stale")]).1,
   (render_always_overwrites libs1.sitemapTpl libs1.frontTpl libs1.episodeTpl cfg1 [item1']
      feed1' [(osJoin cfg1.output_dir "index.html", "stale")]).2.1,
   (render_always_overwrites libs1.sitemapTpl libs1.frontTpl libs1.episodeTpl cfg1 [item1']
      feed1' [(episodePagePath "out" "episode-one", "stale")]).2.2
      [(episodePagePath "out" "episode-one", "episodepage")] item1' "episode-one"
      (by rfl) (List.mem_singleton.mpr rfl) (by rfl) (List.pairwise_singleton _ _)⟩

/-! ### C2 — audio downloads are skip-on-exists -/

theorem FS.existsP_write_self (fs : FS) (p c : String) :
    FS.existsP (FS.write fs p c) p = true := by
  simp [FS.existsP, FS.get_write_self]

theorem FS.existsP_write_ne (fs : FS) (p q c : String) (h : q ≠ p) :
    FS.existsP (FS.write fs p c) q = FS.existsP fs q := by
  simp [FS.existsP, FS.get_write_ne fs p q c h]

/-- Files present before an audio run are left untouched by it: their
contents are preserved and no GET is logged against their path. -/
theorem download_audio_preserves_existing (http : String → Except Unit Response)
    (output_dir : String) : ∀ (eps : List JVal) (fs fs' : FS)
    (log : List (String × String)) (p : String),
    download_audio_files http output_dir eps fs = Except.ok (fs', log) →
    FS.existsP fs p = true →
    FS.get fs' p = FS.get fs p ∧ ∀ u, (p, u) ∉ log := by
  intro eps
  induction eps with
  | nil =>
    intro fs fs' log p h hex
    simp only [download_audio_files, Except.ok.injEq, Prod.mk.injEq] at h
    rw [← h.1, ← h.2]
    exact ⟨rfl, fun u => List.not_mem_nil (p, u)⟩
  | cons e rest ih =>
    intro fs fs' log p h hex
    simp only [download_audio_files] at h
    cases hfn : subscriptE e "file_name" with
    | error err => simp only [hfn] at h; exact absurd h (by simp)
    | ok fv =>
      simp only [hfn] at h
      cases hfs : asStrE fv with
      | error err => simp only [hfs] at h; exact absurd h (by simp)
      | ok fname =>
        simp only [hfs] at h
        by_cases hex0 : FS.existsP fs (osJoin (osJoin output_dir "audio") fname) = true
        · rw [if_pos hex0] at h
          exact ih fs fs' log p h hex
        · rw [if_neg hex0] at h
          cases he : subscriptE e "enclosure" with
          | error err => simp only [he] at h; exact absurd h (by simp)
          | ok encl =>
            simp only [he] at h
            cases hu : subscriptE encl "@url" with
            | error err => simp only [hu] at h; exact absurd h (by simp)
            | ok uv =>
              simp only [hu] at h
              cases hus : asStrE uv with
              | error err => simp only [hus] at h; exact absurd h (by simp)
              | ok u =>
                simp only [hus] at h
                cases hh : http u with
                | error e' => simp only [hh] at h; exact absurd h (by simp)
                | ok r =>
                  simp only [hh] at h
                  cases hrec : download_audio_files http output_dir rest
                      (FS.write fs (osJoin (osJoin output_dir "audio") fname) r.content) with
                  | error err => simp only [hrec] at h; exact absurd h (by simp)
                  | ok out =>
                    simp only [hrec, Except.ok.injEq, Prod.mk.injEq] at h
                    have hne : p ≠ osJoin (osJoin output_dir "audio") fname := by
                      intro hpe
                      rw [hpe] at hex
                      exact hex0 hex
                    have hex1 : FS.existsP
                        (FS.write fs (osJoin (osJoin output_dir "audio") fname) r.content) p
                        = true := by
                      rw [FS.existsP_write_ne _ _ _ _ hne]
                      exact hex
                    have := ih _ out.1 out.2 p hrec hex1
                    constructor
                    · rw [← h.1, this.1, FS.get_write_ne _ _ _ _ hne]
                    · intro u' hmem
                      rw [← h.2] at hmem
                      rcases List.mem_cons.mp hmem with heq | hmem'
                      · exact hne (congrArg Prod.fst heq)
                      · exact this.2 u' hmem'

/-- Every logged audio GET was for a path absent before the run, and the
full response body ends up stored at that path. -/
theorem download_audio_logged_means_absent (http : String → Except Unit Response)
    (output_dir : String) : ∀ (eps : List JVal) (fs fs' : FS)
    (log : List (String × String)) (p u : String),
    download_audio_files http output_dir eps fs = Except.ok (fs', log) →
    (p, u) ∈ log →
    FS.existsP fs p = false ∧ ∃ r, http u = Except.ok r ∧ FS.get fs' p = some r.content := by
  intro eps
  induction eps with
  | nil =>
    intro fs fs' log p u h hmem
    simp only [download_audio_files, Except.ok.injEq, Prod.mk.injEq] at h
    rw [← h.2] at hmem
    exact absurd hmem (List.not_mem_nil (p, u))
  | cons e rest ih =>
    intro fs fs' log p u h hmem
    simp only [download_audio_files] at h
    cases hfn : subscriptE e "file_name" with
    | error err => simp only [hfn] at h; exact absurd h (by simp)
    | ok fv =>
      simp only [hfn] at h
      cases hfs : asStrE fv with
      | error err => simp only [hfs] at h; exact absurd h (by simp)
      | ok fname =>
        simp only [hfs] at h
        by_cases hex0 : FS.existsP fs (osJoin (osJoin output_dir "audio") fname) = true
        · rw [if_pos hex0] at h
          exact ih fs fs' log p u h hmem
        · rw [if_neg hex0] at h
          cases he : subscriptE e "enclosure" with
          | error err => simp only [he] at h; exact absurd h (by simp)
          | ok encl =>
            simp only [he] at h
            cases hu : subscriptE encl "@url" with
            | error err => simp only [hu] at h; exact absurd h (by simp)
            | ok uv =>
              simp only [hu] at h
              cases hus : asStrE uv with
              | error err => simp only [hus] at h; exact absurd h (by simp)
              | ok u0 =>
                simp only [hus] at h
                cases hh : http u0 with
                | error e' => simp only [hh] at h; exact absurd h (by simp)
                | ok r =>
                  simp only [hh] at h
                  cases hrec : download_audio_files http output_dir rest
                      (FS.write fs (osJoin (osJoin output_dir "audio") fname) r.content) with
                  | error err => simp only [hrec] at h; exact absurd h (by simp)
                  | ok out =>
                    simp only [hrec, Except.ok.injEq, Prod.mk.injEq] at h
                    rw [← h.2] at hmem
                    rcases List.mem_cons.mp hmem with heq | hmem'
                    · have hp : p = osJoin (osJoin output_dir "audio") fname :=
                        congrArg Prod.fst heq
                      have hu0 : u = u0 := congrArg Prod.snd heq
                      subst hp
                      subst hu0
                      refine ⟨Bool.not_eq_true _ ▸ hex0, r, hh, ?_⟩
                      have hpres := download_audio_preserves_existing http output_dir rest _
                        out.1 out.2 _ hrec (FS.existsP_write_self fs _ r.content)
                      rw [← h.1, hpres.1, FS.get_write_self]
                    · have hrest := ih _ out.1 out.2 p u hrec hmem'
                      have hne : p ≠ osJoin (osJoin output_dir "audio") fname := by
                        intro hpe
                        rw [hpe, FS.existsP_write_self] at hrest
                        exact absurd hrest.1 (by simp)
                      rw [FS.existsP_write_ne _ _ _ _ hne] at hrest
                      rw [← h.1]
                      exact hrest

/-- Every episode whose destination path is absent before the run gets a
GET logged against that path. -/
theorem download_audio_fetches_absent (http : String → Except Unit Response)
    (output_dir : String) : ∀ (eps : List JVal) (fs fs' : FS)
    (log : List (String × String)),
    download_audio_files http output_dir eps fs = Except.ok (fs', log) →
    ∀ e ∈ eps, ∀ fn, JVal.get e "file_name" = some (JVal.str fn) →
    FS.existsP fs (osJoin (osJoin output_dir "audio") fn) = false →
    ∃ u, (osJoin (osJoin output_dir "audio") fn, u) ∈ log := by
  intro eps
  induction eps with
  | nil =>
    intro fs fs' log h e hmem
    exact absurd hmem (List.not_mem_nil e)
  | cons e0 rest ih =>
    intro fs fs' log h e hmem fn hget hab
    simp only [download_audio_files] at h
    cases hfn : subscriptE e0 "file_name" with
    | error err => simp only [hfn] at h; exact absurd h (by simp)
    | ok fv =>
      simp only [hfn] at h
      cases hfs : asStrE fv with
      | error err => simp only [hfs] at h; exact absurd h (by simp)
      | ok fname =>
        simp only [hfs] at h
        rcases List.mem_cons.mp hmem with rfl | hmem'
        · have : fv = JVal.str fn := by
            have := get_of_subscriptE hfn
            rw [this] at hget
            exact (Option.some.injEq _ _ ▸ hget.symm) ▸ rfl
          have hfn' : fname = fn := by
            rw [this] at hfs
            simpa [asStrE] using hfs.symm
          subst hfn'
          rw [if_neg (by rw [hab]; simp)] at h
          cases he : subscriptE e "enclosure" with
          | error err => simp only [he] at h; exact absurd h (by simp)
          | ok encl =>
            simp only [he] at h
            cases hu : subscriptE encl "@url" with
            | error err => simp only [hu] at h; exact absurd h (by simp)
            | ok uv =>
              simp only [hu] at h
              cases hus : asStrE uv with
              | error err => simp only [hus] at h; exact absurd h (by simp)
              | ok u0 =>
                simp only [hus] at h
                cases hh : http u0 with
                | error e' => simp only [hh] at h; exact absurd h (by simp)
                | ok r =>
                  simp only [hh] at h
                  cases hrec : download_audio_files http output_dir rest
                      (FS.write fs (osJoin (osJoin output_dir "audio") fname) r.content) with
                  | error err => simp only [hrec] at h; exact absurd h (by simp)
                  | ok out =>
                    simp only [hrec, Except.ok.injEq, Prod.mk.injEq] at h
                    exact ⟨u0, by rw [← h.2]; exact List.mem_cons_self _ _⟩
        · by_cases hex0 : FS.existsP fs (osJoin (osJoin output_dir "audio") fname) = true
          · rw [if_pos hex0] at h
            exact ih fs fs' log h e hmem' fn hget hab
          · rw [if_neg hex0] at h
            cases he : subscriptE e0 "enclosure" with
            | error err => simp only [he] at h; exact absurd h (by simp)
            | ok encl =>
              simp only [he] at h
              cases hu : subscriptE encl "@url" with
              | error err => simp only [hu] at h; exact absurd h (by simp)
              | ok uv =>
                simp only [hu] at h
                cases hus : asStrE uv with
                | error err => simp only [hus] at h; exact absurd h (by simp)
                | ok u0 =>
                  simp only [hus] at h
                  cases hh : http u0 with
                  | error e' => simp only [hh] at h; exact absurd h (by simp)
                  | ok r =>
                    simp only [hh] at h
                    cases hrec : download_audio_files http output_dir rest
                        (FS.write fs (osJoin (osJoin output_dir "audio") fname) r.content) with
                    | error err => simp only [hrec] at h; exact absurd h (by simp)
                    | ok out =>
                      simp only [hrec, Except.ok.injEq, Prod.mk.injEq] at h
                      by_cases hpp : osJoin (osJoin output_dir "audio") fn
                          = osJoin (osJoin output_dir "audio") fname
                      · exact ⟨u0, by rw [← h.2, hpp]; exact List.mem_cons_self _ _⟩
                      · have hab' : FS.existsP
                            (FS.write fs (osJoin (osJoin output_dir "audio") fname) r.content)
                            (osJoin (osJoin output_dir "audio") fn) = false := by
                          rw [FS.existsP_write_ne _ _ _ _ hpp]
                          exact hab
                        obtain ⟨u, hu'⟩ := ih _ out.1 out.2 hrec e hmem' fn hget hab'
                        exact ⟨u, by rw [← h.2]; exact List.mem_cons_of_mem _ hu'⟩

/-- C2: For every episode, a destination path `<output>/audio/<file_name>`
that already exists on disk triggers no HTTP GET and keeps its bytes
unchanged; a GET is performed (and the full response body written to the
destination) exactly for destination paths that did not exist. -/
theorem download_audio_skip_on_exists (http : String → Except Unit Response)
    (output_dir : String) (eps : List JVal) (fs fs' : FS) (log : List (String × String))
    (hrun : download_audio_files http output_dir eps fs = Except.ok (fs', log)) :
    (∀ p, FS.existsP fs p = true → FS.get fs' p = FS.get fs p ∧ ∀ u, (p, u) ∉ log)
    ∧ (∀ p u, (p, u) ∈ log → FS.existsP fs p = false
        ∧ ∃ r, http u = Except.ok r ∧ FS.get fs' p = some r.content)
    ∧ (∀ e ∈ eps, ∀ fn, JVal.get e "file_name" = some (JVal.str fn) →
        FS.existsP fs (osJoin (osJoin output_dir "audio") fn) = false →
        ∃ u, (osJoin (osJoin output_dir "audio") fn, u) ∈ log) :=
  ⟨fun p hp => download_audio_preserves_existing http output_dir eps fs fs' log p hrun hp,
   fun p u hm => download_audio_logged_means_absent http output_dir eps fs fs' log p u hrun hm,
   fun e he fn hget hab => download_audio_fetches_absent http output_dir eps fs fs' log hrun
     e he fn hget hab⟩

/-- Witness for C2 at the fixture episode: with the destination
pre-populated the file keeps its bytes and nothing is logged; starting
from an empty disk the destination's GET is logged. -/
theorem download_audio_skip_on_exists_witness :
    FS.get [("out/audio/ep1.mp3", "keep")] "out/audio/ep1.mp3" = some "keep"
    ∧ (∀ u, ("out/audio/ep1.mp3", u) ∉ ([] : List (String × String)))
    ∧ (∃ u, ("out/audio/ep1.mp3", u)
        ∈ [("out/audio/ep1.mp3", "https://cdn.example/ep1.mp3?token=abc")]) :=
  have hpre := (download_audio_skip_on_exists (httpConst "body") "out" [item1']
    [("out/audio/ep1.mp3", "keep")] [("out/audio/ep1.mp3", "keep")] [] (by rfl)).1
    "out/audio/ep1.mp3" (by rfl)
  have habs := (download_audio_skip_on_exists (httpConst "body") "out" [item1'] []
    [("out/audio/ep1.mp3", "body")]
    [("out/audio/ep1.mp3", "https://cdn.example/ep1.mp3?token=abc")] (by rfl)).2.2
    item1' (List.mem_singleton.mpr rfl) "ep1.mp3" (by rfl) (by rfl)
  ⟨hpre.1.trans (by rfl), hpre.2, habs⟩

/-! ### C5 — cover art: unit skip and thumbnail geometry -/

/-- C5: When `<output>/cover_art.jpg` exists the cover step fetches
nothing and regenerates neither file (no thumbnail is produced); when it
does not exist, one GET happens, both files are written, and the produced
thumbnail is bounded by 1000 on its longer side, only ever downscaled,
and keeps the original aspect relation exactly. -/
theorem cover_art_skip_and_thumbnail (http : String → Except Unit Response)
    (decodeImg : String → Img) (encodeImg encodeImgSmall : Img → String)
    (output_dir cover_art_url : String) (fs : FS) :
    (FS.existsP fs (osJoin output_dir "cover_art.jpg") = true →
      download_and_resize_cover_image http decodeImg encodeImg encodeImgSmall
        output_dir cover_art_url fs = Except.ok (fs, [], none))
    ∧ (∀ r, FS.existsP fs (osJoin output_dir "cover_art.jpg") = false →
        http cover_art_url = Except.ok r →
        download_and_resize_cover_image http decodeImg encodeImg encodeImgSmall
          output_dir cover_art_url fs = Except.ok
          (FS.write (FS.write fs (osJoin output_dir "cover_art.jpg")
              (encodeImg (decodeImg r.content)))
            (osJoin output_dir "small_cover_art.jpg")
            (encodeImgSmall (pilThumbnail (decodeImg r.content) 1000)),
           [cover_art_url], some (pilThumbnail (decodeImg r.content) 1000)))
    ∧ (∀ img : Img, 0 < img.w → 0 < img.h →
        max (pilThumbnail img 1000).w (pilThumbnail img 1000).h ≤ 1000
        ∧ (pilThumbnail img 1000).w ≤ img.w
        ∧ (pilThumbnail img 1000).h ≤ img.h
        ∧ (pilThumbnail img 1000).w * img.h = (pilThumbnail img 1000).h * img.w) := by
  refine ⟨?_, ?_, ?_⟩
  · intro hex
    unfold download_and_resize_cover_image
    rw [if_pos hex]
  · intro r hex hr
    unfold download_and_resize_cover_image
    rw [if_neg (by rw [hex]; simp), hr]
  · intro img hw hh
    unfold pilThumbnail
    by_cases hb : img.w ≤ 1000 ∧ img.h ≤ 1000
    · rw [if_pos hb]
      exact ⟨max_le hb.1 hb.2, le_refl _, le_refl _, mul_comm _ _⟩
    · rw [if_neg hb]
      simp only
      have hwm : img.w ≤ max img.w img.h := le_max_left _ _
      have hhm : img.h ≤ max img.w img.h := le_max_right _ _
      have hm1000 : (1000 : ℚ) < max img.w img.h := by
        rcases not_and_or.mp hb with hw' | hh'
        · exact lt_of_lt_of_le (lt_of_not_le hw') hwm
        · exact lt_of_lt_of_le (lt_of_not_le hh') hhm
      have hm0 : (0 : ℚ) < max img.w img.h := lt_trans (by norm_num) hm1000
      have hmne : max img.w img.h ≠ 0 := ne_of_gt hm0
      refine ⟨max_le ?_ ?_, ?_, ?_, ?_⟩
      · rw [div_le_iff₀ hm0]
        nlinarith
      · rw [div_le_iff₀ hm0]
        nlinarith
      · rw [div_le_iff₀ hm0]
        nlinarith
      · rw [div_le_iff₀ hm0]
        nlinarith
      · field_simp
        ring

/-- Witness for C5: with the full-size file pre-existing nothing happens;
a 2000 by 1200 decode yields a 1000 by 600 thumbnail, within bounds and
downscaled with the exact aspect relation. -/
theorem cover_art_skip_and_thumbnail_witness :
    download_and_resize_cover_image (httpConst "body") (fun s => ⟨2000, 1200, s⟩)
      (fun i => "full:" ++ i.dat) (fun i => "small:" ++ i.dat) "out" "http://c"
      [("out/cover_art.jpg", "keep")] = Except.ok ([("out/cover_art.jpg", "keep")], [], none)
    ∧ (max (pilThumbnail ⟨2000, 1200, "x"⟩ 1000).w (pilThumbnail ⟨2000, 1200, "x"⟩ 1000).h ≤ 1000
        ∧ (pilThumbnail ⟨2000, 1200, "x"⟩ 1000).w ≤ (2000 : ℚ)
        ∧ (pilThumbnail ⟨2000, 1200, "x"⟩ 1000).h ≤ (1200 : ℚ)
        ∧ (pilThumbnail ⟨2000, 1200, "x"⟩ 1000).w * (1200 : ℚ)
            = (pilThumbnail ⟨2000, 1200, "x"⟩ 1000).h * (2000 : ℚ)) :=
  ⟨(cover_art_skip_and_thumbnail (httpConst "body") (fun s => ⟨2000, 1200, s⟩)
      (fun i => "full:" ++ i.dat) (fun i => "small:" ++ i.dat) "out" "http://c"
      [("out/cover_art.jpg", "keep")]).1 (by rfl),
   (cover_art_skip_and_thumbnail (httpConst "body") (fun s => ⟨2000, 1200, s⟩)
      (fun i => "full:" ++ i.dat) (fun i => "small:" ++ i.dat) "out" "http://c"
      [("out/cover_art.jpg", "keep")]).2.2 ⟨2000, 1200, "x"⟩ (by norm_num) (by norm_num)⟩

/-! ### C9 — feed fetch and HTTP status -/

/-- Counterexample to C9: a GET that yields HTTP status 404 with a
parseable body makes `download_and_parse_feed` return the parsed body; no
error is propagated, contradicting the claim that a non-success status
fails with a network error instead of being parsed as a feed. -/
theorem feed_fetch_status_counterexample :
    download_and_parse_feed (fun _ => Except.ok ⟨404, "<x/>", "<x/>"⟩)
      (fun s => Except.ok (JVal.str s)) "http://u"
      = Except.ok (JVal.str "<x/>")
    ∧ download_and_parse_feed (fun _ => Except.ok ⟨404, "<x/>", "<x/>"⟩)
      (fun s => Except.ok (JVal.str s)) "http://u" ≠ Except.error RunErr.netError := by
  constructor
  · rfl
  · intro h
    rw [show download_and_parse_feed (fun _ => Except.ok ⟨404, "<x/>", "<x/>"⟩)
      (fun s => Except.ok (JVal.str s)) "http://u" = Except.ok (JVal.str "<x/>") from rfl] at h
    exact Except.noConfusion h

/-- C9 amended: the fetch fails with a network error exactly when the
transport fails (unreachable host), and that error is propagated; the
HTTP status code is never consulted — two responses with equal text
produce identical outcomes whatever their statuses, the body always being
handed to the XML parser. -/
theorem download_and_parse_feed_amended (parseXml : String → Except Unit JVal)
    (url : String) :
    (∀ (http : String → Except Unit Response) err, http url = Except.error err →
      download_and_parse_feed http parseXml url = Except.error RunErr.netError)
    ∧ (∀ (http http' : String → Except Unit Response) r r',
        http url = Except.ok r → http' url = Except.ok r' → r.text = r'.text →
        download_and_parse_feed http parseXml url = download_and_parse_feed http' parseXml url)
    ∧ (∀ (http : String → Except Unit Response) r, http url = Except.ok r →
        download_and_parse_feed http parseXml url
          = match parseXml r.text with
            | Except.ok p => Except.ok p
            | Except.error _ => Except.error RunErr.xmlError) := by
  refine ⟨?_, ?_, ?_⟩
  · intro http err h
    unfold download_and_parse_feed
    simp only [h]
  · intro http http' r r' h h' htext
    unfold download_and_parse_feed
    simp only [h, h', htext]
  · intro http r h
    unfold download_and_parse_feed
    simp only [h]
    cases hp : parseXml r.text <;> simp [hp]

/-- Witness for the amended C9: an unreachable host propagates the
network error, and a 404 response is treated exactly like a 200 response
with the same body. -/
theorem download_and_parse_feed_amended_witness :
    download_and_parse_feed (fun _ => Except.error ()) (fun s => Except.ok (JVal.str s))
      "http://u" = Except.error RunErr.netError
    ∧ download_and_parse_feed (fun _ => Except.ok ⟨404, "<x/>", "<x/>"⟩)
        (fun s => Except.ok (JVal.str s)) "http://u"
      = download_and_parse_feed (fun _ => Except.ok ⟨200, "<x/>", "<x/>"⟩)
        (fun s => Except.ok (JVal.str s)) "http://u" :=
  ⟨(download_and_parse_feed_amended (fun s => Except.ok (JVal.str s)) "http://u").1
     (fun _ => Except.error ()) () rfl,
   (download_and_parse_feed_amended (fun s => Except.ok (JVal.str s)) "http://u").2.1
     (fun _ => Except.ok ⟨404, "<x/>", "<x/>"⟩) (fun _ => Except.ok ⟨200, "<x/>", "<x/>"⟩)
     ⟨404, "<x/>", "<x/>"⟩ ⟨200, "<x/>", "<x/>"⟩ rfl rfl rfl⟩

/-! ### C6 — file name derivation strips query and fragment -/

theorem takeWhile_append_of_all {α : Type} (p : α → Bool) (l1 l2 : List α)
    (h : ∀ c ∈ l1, p c = true) :
    (l1 ++ l2).takeWhile p = l1 ++ l2.takeWhile p := by
  induction l1 with
  | nil => simp
  | cons c t ih =>
    simp only [List.cons_append, List.takeWhile_cons, h c (List.mem_cons_self c t), if_true]
    rw [ih (fun c' hc' => h c' (List.mem_cons_of_mem c hc'))]

theorem takeWhile_cons_false {α : Type} (p : α → Bool) (c : α) (l : List α)
    (h : p c = false) : (c :: l).takeWhile p = [] := by
  simp [List.takeWhile_cons, h]

theorem dropWhile_append_of_all {α : Type} (p : α → Bool) (l1 l2 : List α)
    (h : ∀ c ∈ l1, p c = true) :
    (l1 ++ l2).dropWhile p = l2.dropWhile p := by
  induction l1 with
  | nil => simp
  | cons c t ih =>
    simp only [List.cons_append, List.dropWhile_cons, h c (List.mem_cons_self c t), if_true]
    exact ih (fun c' hc' => h c' (List.mem_cons_of_mem c hc'))

theorem dropWhile_cons_false {α : Type} (p : α → Bool) (c : α) (l : List α)
    (h : p c = false) : (c :: l).dropWhile p = c :: l := by
  simp [List.dropWhile_cons, h]

/-- Everything after the last slash, when the trailing part has none. -/
theorem basenameL_last_segment (pre name : List Char) (hname : ∀ c ∈ name, c ≠ '/') :
    basenameL (pre ++ '/' :: name) = name := by
  unfold basenameL
  rw [List.reverse_append, List.reverse_cons, List.append_assoc]
  rw [takeWhile_append_of_all _ name.reverse (['/'] ++ pre.reverse)
    (fun c hc => by simpa using hname c (List.mem_reverse.mp hc))]
  rw [List.singleton_append, takeWhile_cons_false _ '/' pre.reverse (by decide)]
  simp

theorem isAlphaA_ne_specials (c : Char) (h : isAlphaA c = true) :
    c ≠ ':' ∧ c ≠ '/' ∧ c ≠ '?' ∧ c ≠ '#' :=
  ⟨fun hc => absurd (hc ▸ h) (by decide), fun hc => absurd (hc ▸ h) (by decide),
   fun hc => absurd (hc ▸ h) (by decide), fun hc => absurd (hc ▸ h) (by decide)⟩

theorem schemeChar_of_alpha (c : Char) (h : isAlphaA c = true) : schemeChar c = true := by
  simp only [isAlphaA, Bool.or_eq_true] at h
  simp only [schemeChar, isAlnumA, Bool.or_eq_true]
  tauto

theorem stripScheme_drops_scheme (c0 : Char) (srest rest : List Char)
    (hc0 : isAlphaA c0 = true) (hs : ∀ c ∈ srest, isAlphaA c = true) :
    stripScheme ((c0 :: srest) ++ ':' :: rest) = rest := by
  have hall : ∀ c ∈ c0 :: srest, (fun c => decide (c ≠ ':')) c = true := by
    intro c hc
    rcases List.mem_cons.mp hc with rfl | hc'
    · simpa using (isAlphaA_ne_specials c hc0).1
    · simpa using (isAlphaA_ne_specials c (hs c hc')).1
  have hpre : ((c0 :: srest) ++ ':' :: rest).takeWhile (fun c => decide (c ≠ ':'))
      = c0 :: srest := by
    rw [takeWhile_append_of_all _ _ _ hall, takeWhile_cons_false _ _ _ (by decide)]
    simp
  simp only [stripScheme]
  simp only [hpre]
  rw [if_pos ?_]
  · have hrw : (c0 :: srest) ++ ':' :: rest = ((c0 :: srest) ++ [':']) ++ rest := by simp
    rw [hrw, show (c0 :: srest).length + 1 = ((c0 :: srest) ++ [':']).length by simp,
      List.drop_left]
  · refine ⟨?_, by simp, by simpa [List.headI] using hc0, ?_⟩
    · simp only [List.length_append, List.length_cons]
      omega
    · rw [List.all_eq_true]
      intro c hc
      rcases List.mem_cons.mp hc with rfl | hc'
      · exact schemeChar_of_alpha c hc0
      · exact schemeChar_of_alpha c (hs c hc')

theorem stripNetloc_skips_host (host tail0 : List Char)
    (hhost : ∀ c ∈ host, netlocDelim c = false) :
    stripNetloc ('/' :: '/' :: (host ++ '/' :: tail0)) = '/' :: tail0 := by
  show (host ++ '/' :: tail0).dropWhile (fun c => !netlocDelim c) = '/' :: tail0
  rw [dropWhile_append_of_all _ _ _ (fun c hc => by simp [hhost c hc])]
  exact dropWhile_cons_false _ _ _ (by decide)

theorem takeWhile_all {α : Type} (p : α → Bool) (l : List α) (h : ∀ c ∈ l, p c = true) :
    l.takeWhile p = l := by
  induction l with
  | nil => rfl
  | cons c t ih =>
    simp only [List.takeWhile_cons, h c (List.mem_cons_self c t), if_true]
    rw [ih (fun c' hc' => h c' (List.mem_cons_of_mem c hc'))]

theorem urlPath_decomp (c0 : Char) (srest host mid name qf : List Char)
    (hc0 : isAlphaA c0 = true) (hs : ∀ c ∈ srest, isAlphaA c = true)
    (hhost : ∀ c ∈ host, c ≠ '/' ∧ c ≠ '?' ∧ c ≠ '#')
    (hmid : ∀ c ∈ mid, c ≠ '?' ∧ c ≠ '#')
    (hname : ∀ c ∈ name, c ≠ '/' ∧ c ≠ '?' ∧ c ≠ '#')
    (hqf : qf = [] ∨ (∃ t, qf = '?' :: t) ∨ (∃ t, qf = '#' :: t)) :
    urlPath ((c0 :: srest) ++ ':' :: '/' :: '/' :: (host ++ '/' :: (mid ++ name ++ qf)))
      = '/' :: (mid ++ name) := by
  unfold urlPath
  rw [stripScheme_drops_scheme c0 srest _ hc0 hs]
  rw [stripNetloc_skips_host host _ (fun c hc => by
    simp [netlocDelim, (hhost c hc).1, (hhost c hc).2.1, (hhost c hc).2.2])]
  have hassoc : '/' :: (mid ++ name ++ qf) = ('/' :: (mid ++ name)) ++ qf := by simp
  rw [hassoc]
  have hpreH : ∀ c ∈ '/' :: (mid ++ name), (fun c => decide (c ≠ '#')) c = true := by
    intro c hc
    rcases List.mem_cons.mp hc with rfl | hc'
    · decide
    · rcases List.mem_append.mp hc' with hm | hn
      · simpa using (hmid c hm).2
      · simpa using (hname c hn).2.2
  have hpreQ : ∀ c ∈ '/' :: (mid ++ name), (fun c => decide (c ≠ '?')) c = true := by
    intro c hc
    rcases List.mem_cons.mp hc with rfl | hc'
    · decide
    · rcases List.mem_append.mp hc' with hm | hn
      · simpa using (hmid c hm).1
      · simpa using (hname c hn).2.1
  rcases hqf with rfl | ⟨t, rfl⟩ | ⟨t, rfl⟩
  · rw [List.append_nil, takeWhile_all _ _ hpreH, takeWhile_all _ _ hpreQ]
  · rw [takeWhile_append_of_all _ _ _ hpreH, List.takeWhile_cons]
    rw [if_pos (by decide)]
    rw [takeWhile_append_of_all _ _ _ hpreQ, takeWhile_cons_false _ _ _ (by decide)]
    simp
  · rw [takeWhile_append_of_all _ _ _ hpreH, takeWhile_cons_false _ _ _ (by decide)]
    rw [List.append_nil, takeWhile_all _ _ hpreQ]

/-- C6: For a URL of shape `scheme://host/<dirs><name><query-fragment>`
(scheme alphabetic, host and final segment free of `/`, `?`, `#`, the
directory part slash-terminated, query/fragment starting with `?` or
`#`), the derived local file name is exactly the final path segment with
the query string and fragment excluded — it equals both the given segment
and the spec-side derivation `specFileName`. -/
theorem fileNameOf_final_segment (c0 : Char) (srest host mid name qf : List Char)
    (hc0 : isAlphaA c0 = true) (hs : ∀ c ∈ srest, isAlphaA c = true)
    (hhost : ∀ c ∈ host, c ≠ '/' ∧ c ≠ '?' ∧ c ≠ '#')
    (hmid : ∀ c ∈ mid, c ≠ '?' ∧ c ≠ '#')
    (hmid2 : mid = [] ∨ ∃ t, mid = t ++ ['/'])
    (hname : ∀ c ∈ name, c ≠ '/' ∧ c ≠ '?' ∧ c ≠ '#')
    (hqf : qf = [] ∨ (∃ t, qf = '?' :: t) ∨ (∃ t, qf = '#' :: t)) :
    fileNameOf (String.mk ((c0 :: srest) ++ ':' :: '/' :: '/'
        :: (host ++ '/' :: (mid ++ name ++ qf)))) = String.mk name
    ∧ specFileName (String.mk ((c0 :: srest) ++ ':' :: '/' :: '/'
        :: (host ++ '/' :: (mid ++ name ++ qf)))) = String.mk name := by
  have hnameSlash : ∀ c ∈ name, c ≠ '/' := fun c hc => (hname c hc).1
  constructor
  · show String.mk (basenameL (urlPath ((c0 :: srest) ++ ':' :: '/' :: '/'
      :: (host ++ '/' :: (mid ++ name ++ qf))))) = String.mk name
    rw [urlPath_decomp c0 srest host mid name qf hc0 hs hhost hmid hname hqf]
    rcases hmid2 with rfl | ⟨t, rfl⟩
    · rw [show '/' :: ([] ++ name) = [] ++ '/' :: name by simp,
        basenameL_last_segment [] name hnameSlash]
    · rw [show '/' :: ((t ++ ['/']) ++ name) = ('/' :: t) ++ '/' :: name by simp,
        basenameL_last_segment ('/' :: t) name hnameSlash]
  · show String.mk (basenameL (((c0 :: srest) ++ ':' :: '/' :: '/'
      :: (host ++ '/' :: (mid ++ name ++ qf))).takeWhile
        (fun c => !(c == '?' || c == '#')))) = String.mk name
    have hassoc : (c0 :: srest) ++ ':' :: '/' :: '/' :: (host ++ '/' :: (mid ++ name ++ qf))
        = ((c0 :: srest) ++ ':' :: '/' :: '/' :: (host ++ '/' :: (mid ++ name))) ++ qf := by
      simp
    rw [hassoc]
    have hpre : ∀ c ∈ (c0 :: srest) ++ ':' :: '/' :: '/' :: (host ++ '/' :: (mid ++ name)),
        (fun c => !(c == '?' || c == '#')) c = true := by
      intro c hc
      rcases List.mem_append.mp hc with hsch | hrest
      · rcases List.mem_cons.mp hsch with rfl | hc'
        · have := isAlphaA_ne_specials c hc0
          simp [this.2.2.1, this.2.2.2]
        · have := isAlphaA_ne_specials c (hs c hc')
          simp [this.2.2.1, this.2.2.2]
      · rcases List.mem_cons.mp hrest with rfl | h1
        · decide
        rcases List.mem_cons.mp h1 with rfl | h2
        · decide
        rcases List.mem_cons.mp h2 with rfl | h3
        · decide
        rcases List.mem_append.mp h3 with hh | h4
        · simp [(hhost c hh).2.1, (hhost c hh).2.2]
        rcases List.mem_cons.mp h4 with rfl | h5
        · decide
        rcases List.mem_append.mp h5 with hm | hn
        · simp [(hmid c hm).1, (hmid c hm).2]
        · simp [(hname c hn).2.1, (hname c hn).2.2]
    have hcut : (((c0 :: srest) ++ ':' :: '/' :: '/' :: (host ++ '/' :: (mid ++ name))) ++ qf).takeWhile
        (fun c => !(c == '?' || c == '#'))
        = (c0 :: srest) ++ ':' :: '/' :: '/' :: (host ++ '/' :: (mid ++ name)) := by
      rcases hqf with rfl | ⟨t, rfl⟩ | ⟨t, rfl⟩
      · rw [List.append_nil, takeWhile_all _ _ hpre]
      · rw [takeWhile_append_of_all _ _ _ hpre, takeWhile_cons_false _ _ _ (by decide)]
        simp
      · rw [takeWhile_append_of_all _ _ _ hpre, takeWhile_cons_false _ _ _ (by decide)]
        simp
    rw [hcut]
    rcases hmid2 with rfl | ⟨t, rfl⟩
    · rw [show (c0 :: srest) ++ ':' :: '/' :: '/' :: (host ++ '/' :: ([] ++ name))
          = ((c0 :: srest) ++ ':' :: '/' :: '/' :: host) ++ '/' :: name by simp,
        basenameL_last_segment _ name hnameSlash]
    · rw [show (c0 :: srest) ++ ':' :: '/' :: '/' :: (host ++ '/' :: ((t ++ ['/']) ++ name))
          = ((c0 :: srest) ++ ':' :: '/' :: '/' :: (host ++ '/' :: t)) ++ '/' :: name by simp,
        basenameL_last_segment _ name hnameSlash]

/-- Witness for C6 at the spec's example URL. -/
theorem fileNameOf_final_segment_witness :
    fileNameOf "https://cdn.example/ep1.mp3?token=abc" = "ep1.mp3"
    ∧ specFileName "https://cdn.example/ep1.mp3?token=abc" = "ep1.mp3" :=
  fileNameOf_final_segment 'h' "ttps".toList "cdn.example".toList []
    "ep1.mp3".toList "?token=abc".toList (by decide) (by decide) (by decide)
    (by decide) (Or.inl rfl) (by decide) (Or.inr (Or.inl ⟨"token=abc".toList, rfl⟩))

/-! ### C7 — slug derivation: idempotent, deterministic, URL-safe -/

theorem char_toNat_ofNat {n : Nat} (h : n < 55296) : (Char.ofNat n).toNat = n := by
  have hv : n.isValidChar := Or.inl h
  simp only [Char.ofNat, hv, dif_pos, Char.ofNatAux, Char.toNat, UInt32.toNat]
  simp [BitVec.toNat_ofNatLt]

theorem lowerChar_not_upper (c : Char) :
    ¬(65 ≤ (lowerChar c).toNat ∧ (lowerChar c).toNat ≤ 90) := by
  unfold lowerChar
  by_cases h : 65 ≤ c.toNat ∧ c.toNat ≤ 90
  · rw [if_pos h]
    rw [char_toNat_ofNat (by omega)]
    omega
  · rw [if_neg h]
    exact h

theorem lowerChar_fix (c : Char) (h : ¬(65 ≤ c.toNat ∧ c.toNat ≤ 90)) :
    lowerChar c = c := by
  unfold lowerChar
  rw [if_neg h]

theorem lowerChar_idem (c : Char) : lowerChar (lowerChar c) = lowerChar c :=
  lowerChar_fix _ (lowerChar_not_upper c)

/-- Words produced by the splitter are nonempty, consist of
non-separator characters, and draw their characters from the input or
the accumulator. -/
theorem wordsByAux_words (p : Char → Bool) : ∀ (l cur : List Char),
    (∀ c ∈ cur, p c = false) →
    ∀ w ∈ wordsByAux p l cur, w ≠ [] ∧ ∀ c ∈ w, p c = false ∧ (c ∈ l ∨ c ∈ cur) := by
  intro l
  induction l with
  | nil =>
    intro cur hcur w hw
    unfold wordsByAux at hw
    by_cases hc : cur.isEmpty
    · rw [if_pos hc] at hw
      exact absurd hw (List.not_mem_nil w)
    · rw [if_neg hc] at hw
      rcases List.mem_singleton.mp hw with rfl
      refine ⟨by simpa [List.isEmpty_iff] using hc, ?_⟩
      intro c hcw
      exact ⟨hcur c (List.mem_reverse.mp hcw), Or.inr (List.mem_reverse.mp hcw)⟩
  | cons c0 cs ih =>
    intro cur hcur w hw
    unfold wordsByAux at hw
    by_cases hp : p c0 = true
    · rw [if_pos hp] at hw
      by_cases hc : cur.isEmpty
      · rw [if_pos hc] at hw
        have := ih [] (by simp) w hw
        exact ⟨this.1, fun c hcw => ⟨(this.2 c hcw).1,
          by rcases (this.2 c hcw).2 with hm | hm
             · exact Or.inl (List.mem_cons_of_mem c0 hm)
             · exact absurd hm (List.not_mem_nil c)⟩⟩
      · rw [if_neg hc] at hw
        rcases List.mem_cons.mp hw with rfl | hw'
        · refine ⟨by simpa [List.isEmpty_iff] using hc, ?_⟩
          intro c hcw
          exact ⟨hcur c (List.mem_reverse.mp hcw), Or.inr (List.mem_reverse.mp hcw)⟩
        · have := ih [] (by simp) w hw'
          exact ⟨this.1, fun c hcw => ⟨(this.2 c hcw).1,
            by rcases (this.2 c hcw).2 with hm | hm
               · exact Or.inl (List.mem_cons_of_mem c0 hm)
               · exact absurd hm (List.not_mem_nil c)⟩⟩
    · rw [if_neg hp] at hw
      have hcur' : ∀ c ∈ c0 :: cur, p c = false := by
        intro c hcw
        rcases List.mem_cons.mp hcw with rfl | hm
        · exact Bool.not_eq_true _ ▸ hp
        · exact hcur c hm
      have := ih (c0 :: cur) hcur' w hw
      refine ⟨this.1, fun c hcw => ⟨(this.2 c hcw).1, ?_⟩⟩
      rcases (this.2 c hcw).2 with hm | hm
      · exact Or.inl (List.mem_cons_of_mem c0 hm)
      · rcases List.mem_cons.mp hm with rfl | hm'
        · exact Or.inl (List.mem_cons_self _ _)
        · exact Or.inr hm'

/-- Characters of the joined list are dashes or word characters. -/
theorem joinDash_mem : ∀ (ws : List (List Char)) (c : Char), c ∈ joinDash ws →
    c = '-' ∨ ∃ w ∈ ws, c ∈ w := by
  intro ws
  induction ws with
  | nil => intro c hc; exact absurd hc (List.not_mem_nil c)
  | cons w t ih =>
    intro c hc
    cases t with
    | nil =>
      exact Or.inr ⟨w, List.mem_singleton.mpr rfl, hc⟩
    | cons w' t' =>
      rw [show joinDash (w :: w' :: t') = w ++ '-' :: joinDash (w' :: t') from rfl] at hc
      rcases List.mem_append.mp hc with hw | hrest
      · exact Or.inr ⟨w, List.mem_cons_self _ _, hw⟩
      · rcases List.mem_cons.mp hrest with rfl | hj
        · exact Or.inl rfl
        · rcases ih c hj with h1 | ⟨w0, hw0, hcw0⟩
          · exact Or.inl h1
          · exact Or.inr ⟨w0, List.mem_cons_of_mem _ hw0, hcw0⟩

/-- The joined list of nonempty words is nonempty and starts with the
first word's head. -/
theorem joinDash_head (w : List Char) (t : List (List Char)) (hw : w ≠ []) :
    (joinDash (w :: t)).head? = w.head? := by
  cases t with
  | nil => rfl
  | cons w' t' =>
    rw [show joinDash (w :: w' :: t') = w ++ '-' :: joinDash (w' :: t') from rfl]
    cases w with
    | nil => exact absurd rfl hw
    | cons a b => rfl

theorem joinDash_ne_nil (w : List Char) (t : List (List Char)) (hw : w ≠ []) :
    joinDash (w :: t) ≠ [] := by
  cases t with
  | nil => exact hw
  | cons w' t' =>
    rw [show joinDash (w :: w' :: t') = w ++ '-' :: joinDash (w' :: t') from rfl]
    simp

theorem joinDash_last : ∀ (ws : List (List Char)),
    (∀ w ∈ ws, w ≠ [] ∧ ∀ c ∈ w, c ≠ '-') →
    (joinDash ws).getLast? ≠ some '-' := by
  intro ws
  induction ws with
  | nil => intro _; simp [joinDash]
  | cons w t ih =>
    intro h
    cases t with
    | nil =>
      intro hlast
      obtain ⟨hne, heq⟩ := List.mem_getLast?_eq_getLast (by rw [show joinDash [w] = w from rfl] at hlast; exact hlast)
      exact (h w (List.mem_singleton.mpr rfl)).2 '-' (heq ▸ List.getLast_mem hne) rfl
    | cons w' t' =>
      rw [show joinDash (w :: w' :: t') = w ++ '-' :: joinDash (w' :: t') from rfl]
      have hne : joinDash (w' :: t') ≠ [] :=
        joinDash_ne_nil w' t' (h w' (List.mem_cons_of_mem _ (List.mem_cons_self _ _))).1
      rw [List.getLast?_append_cons]
      cases hj : joinDash (w' :: t') with
      | nil => exact absurd hj hne
      | cons b t2 =>
        rw [List.getLast?_cons_cons]
        rw [← hj]
        exact ih (fun w0 hw0 => h w0 (List.mem_cons_of_mem _ hw0))

theorem noDoubleDash_append (w l : List Char) (hw : ∀ c ∈ w, c ≠ '-')
    (hl : noDoubleDash l = true) : noDoubleDash (w ++ l) = true := by
  induction w with
  | nil => simpa using hl
  | cons a t ih =>
    have ha : a ≠ '-' := hw a (List.mem_cons_self _ _)
    have ht : noDoubleDash (t ++ l) = true :=
      ih (fun c hc => hw c (List.mem_cons_of_mem a hc))
    cases htl : t ++ l with
    | nil => rw [List.cons_append, htl]; rfl
    | cons b t2 =>
      rw [List.cons_append, htl]
      show (!(a == '-' && b == '-') && noDoubleDash (b :: t2)) = true
      rw [htl] at ht
      simp [ht, ha]

theorem noDoubleDash_joinDash : ∀ (ws : List (List Char)),
    (∀ w ∈ ws, w ≠ [] ∧ ∀ c ∈ w, c ≠ '-') →
    noDoubleDash (joinDash ws) = true := by
  intro ws
  induction ws with
  | nil => intro _; rfl
  | cons w t ih =>
    intro h
    cases t with
    | nil =>
      show noDoubleDash w = true
      have := noDoubleDash_append w [] (h w (List.mem_singleton.mpr rfl)).2 rfl
      rwa [List.append_nil] at this
    | cons w' t' =>
      rw [show joinDash (w :: w' :: t') = w ++ '-' :: joinDash (w' :: t') from rfl]
      apply noDoubleDash_append w _ (h w (List.mem_cons_self _ _)).2
      have hw' := h w' (List.mem_cons_of_mem _ (List.mem_cons_self _ _))
      have hhead : (joinDash (w' :: t')).head? = w'.head? := joinDash_head w' t' hw'.1
      have hrest : noDoubleDash (joinDash (w' :: t')) = true :=
        ih (fun w0 hw0 => h w0 (List.mem_cons_of_mem _ hw0))
      cases hj : joinDash (w' :: t') with
      | nil => rfl
      | cons b t2 =>
        show (!('-' == '-' && b == '-') && noDoubleDash (b :: t2)) = true
        have hb : b ≠ '-' := by
          rw [hj] at hhead
          cases w' with
          | nil => exact absurd rfl hw'.1
          | cons a0 t0 =>
            simp only [List.head?_cons, Option.some.injEq] at hhead
            rw [hhead]
            exact hw'.2 a0 (List.mem_cons_self _ _)
        rw [hj] at hrest
        simp [hb, hrest]

theorem wordsByAux_append_word (p : Char → Bool) (w : List Char)
    (hw : ∀ c ∈ w, p c = false) : ∀ (l cur : List Char),
    wordsByAux p (w ++ l) cur = wordsByAux p l (w.reverse ++ cur) := by
  induction w with
  | nil => intro l cur; simp
  | cons c t ih =>
    intro l cur
    rw [List.cons_append, show wordsByAux p (c :: (t ++ l)) cur
      = if p c then (if cur.isEmpty then wordsByAux p (t ++ l) []
          else cur.reverse :: wordsByAux p (t ++ l) [])
        else wordsByAux p (t ++ l) (c :: cur) from rfl]
    rw [if_neg (by rw [hw c (List.mem_cons_self _ _)]; simp)]
    rw [ih (fun c' hc' => hw c' (List.mem_cons_of_mem c hc')) l (c :: cur)]
    congr 1
    simp

theorem wordsBy_joinDash (p : Char → Bool) (hd : p '-' = true) :
    ∀ ws : List (List Char), (∀ w ∈ ws, w ≠ [] ∧ ∀ c ∈ w, p c = false) →
    wordsBy p (joinDash ws) = ws := by
  intro ws
  induction ws with
  | nil => intro _; rfl
  | cons w t ih =>
    intro h
    have hw := h w (List.mem_cons_self _ _)
    cases t with
    | nil =>
      show wordsByAux p (joinDash [w]) [] = [w]
      rw [show joinDash [w] = w from rfl]
      have := wordsByAux_append_word p w hw.2 [] []
      rw [List.append_nil] at this
      rw [this]
      show (if (w.reverse ++ []).isEmpty then ([] : List (List Char))
        else [(w.reverse ++ []).reverse]) = [w]
      rw [List.append_nil]
      rw [if_neg (by simp [List.isEmpty_iff, hw.1])]
      simp
    | cons w' t' =>
      show wordsByAux p (joinDash (w :: w' :: t')) [] = w :: w' :: t'
      rw [show joinDash (w :: w' :: t') = w ++ '-' :: joinDash (w' :: t') from rfl]
      have := wordsByAux_append_word p w hw.2 ('-' :: joinDash (w' :: t')) []
      rw [List.append_nil] at this
      rw [this]
      rw [show wordsByAux p ('-' :: joinDash (w' :: t')) w.reverse
        = if p '-' then (if w.reverse.isEmpty then wordsByAux p (joinDash (w' :: t')) []
            else w.reverse.reverse :: wordsByAux p (joinDash (w' :: t')) [])
          else wordsByAux p (joinDash (w' :: t')) ('-' :: w.reverse) from rfl]
      rw [if_pos hd, if_neg (by simp [List.isEmpty_iff, hw.1]), List.reverse_reverse]
      rw [show wordsByAux p (joinDash (w' :: t')) [] = wordsBy p (joinDash (w' :: t')) from rfl]
      rw [ih (fun w0 hw0 => h w0 (List.mem_cons_of_mem _ hw0))]

/-- Characters of the words underlying a slug: alphanumeric and not
uppercase. -/
theorem slug_words_prop (l : List Char) :
    ∀ w ∈ wordsBy (fun c => !isAlnumA c) (l.map lowerChar),
    w ≠ [] ∧ ∀ c ∈ w, isAlnumA c = true ∧ ¬(65 ≤ c.toNat ∧ c.toNat ≤ 90) := by
  intro w hw
  have h1 := wordsByAux_words (fun c => !isAlnumA c) (l.map lowerChar) []
    (by simp) w hw
  refine ⟨h1.1, fun c hc => ?_⟩
  have h2 := (h1.2 c hc).1
  have h3 : c ∈ l.map lowerChar := by
    rcases (h1.2 c hc).2 with hm | hm
    · exact hm
    · exact absurd hm (List.not_mem_nil c)
  obtain ⟨c0, _, rfl⟩ := List.mem_map.mp h3
  exact ⟨by simpa using h2, lowerChar_not_upper c0⟩

theorem isAlnumA_ne_dash (c : Char) (h : isAlnumA c = true) : c ≠ '-' := by
  intro hc
  rw [hc] at h
  exact absurd h (by decide)

/-- C7: Slug derivation is a deterministic, idempotent function of the
title, and the result is URL-safe: every character is a lowercase ASCII
letter, a digit or a dash, with no leading or trailing dash and no two
adjacent dashes (separator runs collapsed, edges trimmed). -/
theorem slugify_idempotent_urlsafe (s : String) :
    slugify (slugify s) = slugify s
    ∧ (∀ c ∈ (slugify s).toList, isLowerA c = true ∨ isDigitA c = true ∨ c = '-')
    ∧ (slugify s).toList.head? ≠ some '-'
    ∧ (slugify s).toList.getLast? ≠ some '-'
    ∧ noDoubleDash (slugify s).toList = true
    ∧ (∀ t : String, s = t → slugify s = slugify t) := by
  have hwords := slug_words_prop s.toList
  have hwords' : ∀ w ∈ wordsBy (fun c => !isAlnumA c) (s.toList.map lowerChar),
      w ≠ [] ∧ ∀ c ∈ w, c ≠ '-' := by
    intro w hw
    exact ⟨(hwords w hw).1, fun c hc => isAlnumA_ne_dash c ((hwords w hw).2 c hc).1⟩
  refine ⟨?_, ?_, ?_, ?_, ?_, fun t ht => ht ▸ rfl⟩
  · show String.mk (slugifyL (slugifyL s.toList)) = String.mk (slugifyL s.toList)
    congr 1
    show slugifyL (joinDash (wordsBy (fun c => !isAlnumA c) (s.toList.map lowerChar)))
      = joinDash (wordsBy (fun c => !isAlnumA c) (s.toList.map lowerChar))
    unfold slugifyL
    have hmap : (joinDash (wordsBy (fun c => !isAlnumA c) (s.toList.map lowerChar))).map
        lowerChar = joinDash (wordsBy (fun c => !isAlnumA c) (s.toList.map lowerChar)) := by
      have h0 : (joinDash (wordsBy (fun c => !isAlnumA c)
          (s.toList.map lowerChar))).map lowerChar
          = (joinDash (wordsBy (fun c => !isAlnumA c) (s.toList.map lowerChar))).map id := by
        apply List.map_congr_left
        intro c hc
        rcases joinDash_mem _ c hc with rfl | ⟨w, hw, hcw⟩
        · exact lowerChar_fix _ (by decide)
        · exact lowerChar_fix _ ((hwords w hw).2 c hcw).2
      rw [h0, List.map_id]
    rw [hmap]
    rw [wordsBy_joinDash (fun c => !isAlnumA c) (by decide) _
      (fun w hw => ⟨(hwords w hw).1, fun c hc => by simp [((hwords w hw).2 c hc).1]⟩)]
  · intro c hc
    rcases joinDash_mem _ c hc with rfl | ⟨w, hw, hcw⟩
    · exact Or.inr (Or.inr rfl)
    · have h1 := (hwords w hw).2 c hcw
      have h2 := h1.1
      simp only [isAlnumA, Bool.or_eq_true] at h2
      rcases h2 with (hd | hl) | hu
      · exact Or.inr (Or.inl hd)
      · exact Or.inl hl
      · exact absurd (by simpa [isUpperA] using hu) h1.2
  · show (joinDash (wordsBy (fun c => !isAlnumA c) (s.toList.map lowerChar))).head? ≠ some '-'
    cases hws : wordsBy (fun c => !isAlnumA c) (s.toList.map lowerChar) with
    | nil => simp [joinDash]
    | cons w t =>
      have hw := hwords' w (hws ▸ List.mem_cons_self _ _)
      rw [joinDash_head w t hw.1]
      cases w with
      | nil => exact absurd rfl hw.1
      | cons a t0 =>
        simp only [List.head?_cons, Ne, Option.some.injEq]
        exact hw.2 a (List.mem_cons_self _ _)
  · show (joinDash (wordsBy (fun c => !isAlnumA c) (s.toList.map lowerChar))).getLast?
      ≠ some '-'
    exact joinDash_last _ hwords'
  · exact noDoubleDash_joinDash _ hwords'

/-- Witness for C7 at the spec's end-to-end title. -/
theorem slugify_idempotent_urlsafe_witness :
    slugify (slugify "Episode One!") = slugify "Episode One!"
    ∧ noDoubleDash (slugify "Episode One!").toList = true
    ∧ ('e' ∈ (slugify "Episode One!").toList →
        isLowerA 'e' = true ∨ isDigitA 'e' = true ∨ 'e' = '-')
    ∧ slugify "Episode One!" = "episode-one" :=
  ⟨(slugify_idempotent_urlsafe "Episode One!").1,
   (slugify_idempotent_urlsafe "Episode One!").2.2.2.2.1,
   fun h => (slugify_idempotent_urlsafe "Episode One!").2.1 'e' h,
   by rfl⟩

/-! ### C1 — episode extraction keeps exactly the enclosure-bearing items, in order -/

theorem subscriptE_of_get {v : JVal} {k : String} {x : JVal}
    (h : JVal.get v k = some x) : subscriptE v k = Except.ok x := by
  cases v with
  | obj fs =>
    simp only [JVal.get] at h
    simp [subscriptE, h]
  | str s => simp [JVal.get] at h
  | arr xs => simp [JVal.get] at h

theorem processItem_no_enclosure (md : String → String) (item : JVal)
    (h : pyContains item "enclosure" = false) :
    processItem md item = (item, Except.ok none) := by
  unfold processItem
  rw [if_neg (by simp [h])]

theorem processItem_enclosure_cases (md : String → String) (item : JVal)
    (h : pyContains item "enclosure" = true) :
    (∃ e, (processItem md item).2 = Except.error e) ∨
    (processItem md item).2 = Except.ok (some (processItem md item).1) := by
  unfold processItem
  rw [if_pos h]
  cases h1 : subscriptE item "enclosure" with
  | error e => exact Or.inl ⟨e, by simp [bindSt, h1]⟩
  | ok encl =>
  simp only [bindSt, h1]
  cases h2 : subscriptE encl "@url" with
  | error e => exact Or.inl ⟨e, by simp [bindSt, h2]⟩
  | ok url =>
  simp only [bindSt, h2]
  cases h3 : setE item "url" url with
  | error e => exact Or.inl ⟨e, by simp [bindSt, h3]⟩
  | ok item1 =>
  simp only [bindSt, h3]
  cases h4 : subscriptE item1 "title" with
  | error e => exact Or.inl ⟨e, by simp [bindSt, h4]⟩
  | ok t =>
  simp only [bindSt, h4]
  cases h5 : asStrE t with
  | error e => exact Or.inl ⟨e, by simp [bindSt, h5]⟩
  | ok ts =>
  simp only [bindSt, h5]
  cases h6 : setE item1 "slug" (JVal.str (slugify ts)) with
  | error e => exact Or.inl ⟨e, by simp [bindSt, h6]⟩
  | ok item2 =>
  simp only [bindSt, h6]
  cases h7 : subscriptE item2 "description" with
  | error e => exact Or.inl ⟨e, by simp [bindSt, h7]⟩
  | ok d =>
  simp only [bindSt, h7]
  cases h8 : asStrE d with
  | error e => exact Or.inl ⟨e, by simp [bindSt, h8]⟩
  | ok ds =>
  simp only [bindSt, h8]
  cases h9 : setE item2 "description" (JVal.str (md ds)) with
  | error e => exact Or.inl ⟨e, by simp [bindSt, h9]⟩
  | ok item3 =>
  simp only [bindSt, h9]
  cases h10 : subscriptE item3 "url" with
  | error e => exact Or.inl ⟨e, by simp [bindSt, h10]⟩
  | ok u =>
  simp only [bindSt, h10]
  cases h11 : asStrE u with
  | error e => exact Or.inl ⟨e, by simp [bindSt, h11]⟩
  | ok us =>
  simp only [bindSt, h11]
  cases h12 : setE item3 "file_name" (JVal.str (fileNameOf us)) with
  | error e => exact Or.inl ⟨e, by simp [bindSt, h12]⟩
  | ok item4 =>
  simp only [bindSt, h12]
  simp

theorem processItem_ok_none (md : String → String) (item it' : JVal)
    (h : processItem md item = (it', Except.ok none)) :
    pyContains item "enclosure" = false ∧ it' = item := by
  by_cases hc : pyContains item "enclosure" = true
  · rcases processItem_enclosure_cases md item hc with ⟨e, he⟩ | hk
    · rw [h] at he
      exact absurd he (by simp)
    · rw [h] at hk
      exact absurd hk (by simp)
  · have := processItem_no_enclosure md item (Bool.not_eq_true _ ▸ hc)
    rw [h] at this
    exact ⟨Bool.not_eq_true _ ▸ hc, (Prod.mk.injEq _ _ _ _ ▸ this).1.symm ▸ rfl⟩

theorem processItem_ok_some (md : String → String) (item it' ep : JVal)
    (h : processItem md item = (it', Except.ok (some ep))) :
    pyContains item "enclosure" = true ∧ ep = it' := by
  by_cases hc : pyContains item "enclosure" = true
  · rcases processItem_enclosure_cases md item hc with ⟨e, he⟩ | hk
    · rw [h] at he
      exact absurd he (by simp)
    · rw [h] at hk
      simp only [Except.ok.injEq, Option.some.injEq] at hk
      exact ⟨hc, hk⟩
  · have := processItem_no_enclosure md item (Bool.not_eq_true _ ▸ hc)
    rw [h] at this
    have h2 := (Prod.mk.injEq _ _ _ _ ▸ this).2
    exact absurd h2 (by simp)

/-- Characterization of a successful extraction loop: the collected
episodes are exactly the mutated enclosure-bearing items, in input
order, and the final item list is the itemwise mutation of the input. -/
theorem processItems_ok (md : String → String) : ∀ (items items' : List JVal)
    (eps : List JVal), processItems md items = (items', Except.ok eps) →
    eps = (items.filter (fun it => pyContains it "enclosure")).map
        (fun it => (processItem md it).1)
    ∧ items' = items.map (fun it => (processItem md it).1) := by
  intro items
  induction items with
  | nil =>
    intro items' eps h
    simp only [processItems, Prod.mk.injEq, Except.ok.injEq] at h
    simp [← h.1, ← h.2]
  | cons it rest ih =>
    intro items' eps h
    simp only [processItems] at h
    cases hpi : processItem md it with
    | mk it1 r =>
      rw [hpi] at h
      cases r with
      | error e => simp at h
      | ok o =>
        cases o with
        | none =>
          simp only [Prod.mk.injEq] at h
          obtain ⟨hfalse, hit⟩ := processItem_ok_none md it it1 hpi
          cases hrec : processItems md rest with
          | mk rest' r' =>
            rw [hrec] at h
            simp only at h
            cases r' with
            | error e => exact absurd h.2 (by simp)
            | ok eps0 =>
              have heps : eps0 = eps := by
                have := h.2
                simpa using this
              obtain ⟨h1, h2⟩ := ih rest' eps0 hrec
              constructor
              · rw [← heps, h1, List.filter_cons, if_neg (by simp [hfalse])]
              · rw [← h.1, h2, List.map_cons, hpi]
        | some ep =>
          simp only [Prod.mk.injEq] at h
          obtain ⟨htrue, hep⟩ := processItem_ok_some md it it1 ep hpi
          cases hrec : processItems md rest with
          | mk rest' r' =>
            rw [hrec] at h
            cases r' with
            | error e => exact absurd h.2 (by simp [Except.map])
            | ok eps0 =>
              have heps : ep :: eps0 = eps := by
                have := h.2
                simpa [Except.map] using this
              obtain ⟨h1, h2⟩ := ih rest' eps0 hrec
              constructor
              · rw [← heps, h1, List.filter_cons, if_pos (by simp [htrue]), List.map_cons,
                  hpi, hep]
              · rw [← h.1, h2, List.map_cons, hpi]

/-- C1: Whenever `process_episodes` returns (rather than raising), the
episode list consists of exactly the enclosure-bearing feed items — one
(mutated) record per such item, in feed order — and every item without an
enclosure is absent from it. -/
theorem process_episodes_exactly_enclosures (md : String → String)
    (podcast podcast' : JVal) (eps items : List JVal)
    (hitems : ((JVal.get podcast "rss").bind (fun rss => JVal.get rss "channel")).bind
        (fun ch => JVal.get ch "item") = some (JVal.arr items))
    (hok : process_episodes md podcast = (podcast', Except.ok eps)) :
    eps = (items.filter (fun it => pyContains it "enclosure")).map
      (fun it => (processItem md it).1) := by
  rcases Option.bind_eq_some.mp hitems with ⟨ch, hch, hitem⟩
  rcases Option.bind_eq_some.mp hch with ⟨rss, hrss, hch2⟩
  unfold process_episodes at hok
  simp only [subscriptE_of_get hrss, subscriptE_of_get hch2, subscriptE_of_get hitem] at hok
  cases hpr : processItems md items with
  | mk items' r =>
    rw [hpr] at hok
    simp only [Prod.mk.injEq] at hok
    rw [hok.2] at hpr
    exact (processItems_ok md items items' eps hpr).1

/-- Witness for C1 at the spec's two-item scenario: only the
enclosure-bearing item survives, mutated in place. -/
theorem process_episodes_exactly_enclosures_witness :
    [item1'] = (([item1, item2].filter (fun it => pyContains it "enclosure")).map
      (fun it => (processItem mdId it).1))
    ∧ process_episodes mdId feed1 = (feed1', Except.ok [item1']) :=
  ⟨process_episodes_exactly_enclosures mdId feed1 feed1' [item1'] [item1, item2]
    (by rfl) (by rfl), by rfl⟩

/-! ### C8 — the feed mapping is mutated by episode extraction -/

/-- Counterexample to C8: on the fixture feed, episode extraction leaves
the feed mapping changed (the enclosure-bearing item has gained a `url`
key, among others), so the parsed feed is not immutable across the
pipeline. -/
theorem feed_mutation_counterexample : (process_episodes mdId feed1).1 ≠ feed1 := by
  intro h
  have hobs := congrArg (fun p => (firstItem p).map (fun it => pyContains it "url")) h
  exact absurd hobs (by decide)

theorem setE_get_ne {v v' x : JVal} {k0 : String} (h : setE v k0 x = Except.ok v')
    (k : String) (hk : k ≠ k0) : JVal.get v' k = JVal.get v k := by
  cases v with
  | obj fs =>
    simp only [setE, Except.ok.injEq] at h
    rw [← h]
    exact getKey_setKey_ne fs k0 k x hk
  | str s => simp [setE] at h
  | arr xs => simp [setE] at h

/-- Whatever state `processItem` leaves an item in (complete or partial),
every key other than `url`, `slug`, `description` and `file_name` is
unchanged. -/
theorem processItem_fst_get (md : String → String) (it : JVal) (k : String)
    (h1 : k ≠ "url") (h2 : k ≠ "slug") (h3 : k ≠ "description") (h4 : k ≠ "file_name") :
    JVal.get ((processItem md it).1) k = JVal.get it k := by
  by_cases hc : pyContains it "enclosure" = true
  · unfold processItem
    rw [if_pos hc]
    cases ha1 : subscriptE it "enclosure" with
    | error e => simp [bindSt, ha1]
    | ok encl =>
    simp only [bindSt, ha1]
    cases ha2 : subscriptE encl "@url" with
    | error e => simp [bindSt, ha2]
    | ok url =>
    simp only [bindSt, ha2]
    cases ha3 : setE it "url" url with
    | error e => simp [bindSt, ha3]
    | ok item1 =>
    simp only [bindSt, ha3]
    have hg1 : JVal.get item1 k = JVal.get it k := setE_get_ne ha3 k h1
    cases ha4 : subscriptE item1 "title" with
    | error e => simp [bindSt, ha4, hg1]
    | ok t =>
    simp only [bindSt, ha4]
    cases ha5 : asStrE t with
    | error e => simp [bindSt, ha5, hg1]
    | ok ts =>
    simp only [bindSt, ha5]
    cases ha6 : setE item1 "slug" (JVal.str (slugify ts)) with
    | error e => simp [bindSt, ha6, hg1]
    | ok item2 =>
    simp only [bindSt, ha6]
    have hg2 : JVal.get item2 k = JVal.get it k := (setE_get_ne ha6 k h2).trans hg1
    cases ha7 : subscriptE item2 "description" with
    | error e => simp [bindSt, ha7, hg2]
    | ok d =>
    simp only [bindSt, ha7]
    cases ha8 : asStrE d with
    | error e => simp [bindSt, ha8, hg2]
    | ok ds =>
    simp only [bindSt, ha8]
    cases ha9 : setE item2 "description" (JVal.str (md ds)) with
    | error e => simp [bindSt, ha9, hg2]
    | ok item3 =>
    simp only [bindSt, ha9]
    have hg3 : JVal.get item3 k = JVal.get it k := (setE_get_ne ha9 k h3).trans hg2
    cases ha10 : subscriptE item3 "url" with
    | error e => simp [bindSt, ha10, hg3]
    | ok u =>
    simp only [bindSt, ha10]
    cases ha11 : asStrE u with
    | error e => simp [bindSt, ha11, hg3]
    | ok us =>
    simp only [bindSt, ha11]
    cases ha12 : setE item3 "file_name" (JVal.str (fileNameOf us)) with
    | error e => simp [bindSt, ha12, hg3]
    | ok item4 =>
    simp only [bindSt, ha12]
    exact (setE_get_ne ha12 k h4).trans hg3
  · rw [processItem_no_enclosure md it (Bool.not_eq_true _ ▸ hc)]

/-- C8 amended: episode extraction mutates the feed mapping in place, and
only there: on a successful run the channel's item list is rewritten
itemwise (each enclosure-bearing item enriched in place, every other item
untouched and every item key other than `url`, `slug`, `description`,
`file_name` preserved), while all other keys of the mapping, of `rss` and
of the channel are unchanged. -/
theorem process_episodes_mutation_scope (md : String → String)
    (podcast podcast' : JVal) (eps items : List JVal) (rss ch : JVal)
    (hrss : JVal.get podcast "rss" = some rss)
    (hch : JVal.get rss "channel" = some ch)
    (hitem : JVal.get ch "item" = some (JVal.arr items))
    (hok : process_episodes md podcast = (podcast', Except.ok eps)) :
    (∃ rss' ch', JVal.get podcast' "rss" = some rss'
      ∧ JVal.get rss' "channel" = some ch'
      ∧ JVal.get ch' "item" = some (JVal.arr (items.map (fun it => (processItem md it).1)))
      ∧ (∀ k, k ≠ "rss" → JVal.get podcast' k = JVal.get podcast k)
      ∧ (∀ k, k ≠ "channel" → JVal.get rss' k = JVal.get rss k)
      ∧ (∀ k, k ≠ "item" → JVal.get ch' k = JVal.get ch k))
    ∧ (∀ it, pyContains it "enclosure" = false → (processItem md it).1 = it)
    ∧ (∀ it k, k ≠ "url" → k ≠ "slug" → k ≠ "description" → k ≠ "file_name" →
        JVal.get ((processItem md it).1) k = JVal.get it k) := by
  refine ⟨?_, fun it h => by rw [processItem_no_enclosure md it h],
    fun it k h1 h2 h3 h4 => processItem_fst_get md it k h1 h2 h3 h4⟩
  cases podcast with
  | str s => simp [JVal.get] at hrss
  | arr xs => simp [JVal.get] at hrss
  | obj pf =>
  cases rss with
  | str s => simp [JVal.get] at hch
  | arr xs => simp [JVal.get] at hch
  | obj rf =>
  cases ch with
  | str s => simp [JVal.get] at hitem
  | arr xs => simp [JVal.get] at hitem
  | obj cf =>
  simp only [JVal.get] at hrss hch hitem
  unfold process_episodes at hok
  simp only [subscriptE_of_get (show JVal.get (JVal.obj pf) "rss" = some (JVal.obj rf)
    from hrss)] at hok
  simp only [subscriptE_of_get (show JVal.get (JVal.obj rf) "channel" = some (JVal.obj cf)
    from hch)] at hok
  simp only [subscriptE_of_get (show JVal.get (JVal.obj cf) "item" = some (JVal.arr items)
    from hitem)] at hok
  cases hpr : processItems md items with
  | mk items' r =>
    rw [hpr] at hok
    simp only [Prod.mk.injEq] at hok
    have hitems' : items' = items.map (fun it => (processItem md it).1) := by
      rw [hok.2] at hpr
      exact (processItems_ok md items items' eps hpr).2
    rw [← hok.1]
    unfold updateItemList
    simp only [JVal.get, hrss, hch]
    refine ⟨JVal.obj (setKey rf "channel" (JVal.obj (setKey cf "item" (JVal.arr items')))),
      JVal.obj (setKey cf "item" (JVal.arr items')), ?_, ?_, ?_, ?_, ?_, ?_⟩
    · simp [JVal.get, getKey_setKey_self]
    · simp [JVal.get, getKey_setKey_self]
    · simp [JVal.get, getKey_setKey_self, hitems']
    · intro k hk
      simp [JVal.get, getKey_setKey_ne pf "rss" k _ hk]
    · intro k hk
      simp [JVal.get, getKey_setKey_ne rf "channel" k _ hk]
    · intro k hk
      simp [JVal.get, getKey_setKey_ne cf "item" k _ hk]

/-- Witness for the amended C8 at the fixture feed: the rewritten item
list, the untouched second item, and the preserved cover-art metadata. -/
theorem process_episodes_mutation_scope_witness :
    (∃ rss' ch', JVal.get feed1' "rss" = some rss'
      ∧ JVal.get rss' "channel" = some ch'
      ∧ JVal.get ch' "item"
          = some (JVal.arr ([item1, item2].map (fun it => (processItem mdId it).1)))
      ∧ (∀ k, k ≠ "rss" → JVal.get feed1' k = JVal.get feed1 k)
      ∧ (∀ k, k ≠ "channel" → JVal.get rss' k
          = JVal.get (JVal.obj [("channel", chan1)]) k)
      ∧ (∀ k, k ≠ "item" → JVal.get ch' k = JVal.get chan1 k))
    ∧ (∀ it, pyContains it "enclosure" = false → (processItem mdId it).1 = it)
    ∧ (∀ it k, k ≠ "url" → k ≠ "slug" → k ≠ "description" → k ≠ "file_name" →
        JVal.get ((processItem mdId it).1) k = JVal.get it k) :=
  process_episodes_mutation_scope mdId feed1 feed1' [item1'] [item1, item2]
    (JVal.obj [("channel", chan1)]) chan1 (by rfl) (by rfl) (by rfl) (by rfl)

/-! ### C3 — any KeyError during episode processing yields the empty episode list -/

/-- C3: When any field lookup inside `process_episodes` raises a missing
key — whether the channel or item list is absent or a single
enclosure-bearing item lacks, say, its title — `make_site` swallows the
exception and continues the pipeline with the empty episode list (neither
failing at that point nor keeping the well-formed items); a completed run
then reports no episodes and no audio downloads. -/
theorem make_site_swallows_keyError (E : Libs) (config : Config) (fs : FS)
    (podcast p' : JVal)
    (hparse : download_and_parse_feed E.http E.parseXml config.feed_URL
      = Except.ok podcast)
    (hkey : process_episodes E.md podcast = (p', Except.error RunErr.keyError)) :
    make_site E config fs = site_rest E config p' [] fs
    ∧ (∀ out, site_rest E config p' [] fs = Except.ok out →
        out.episodes = [] ∧ out.audioLog = []) := by
  constructor
  · unfold make_site
    simp only [hparse, hkey]
  · intro out hrest
    unfold site_rest at hrest
    simp only [download_audio_files] at hrest
    cases h1 : subscriptE p' "rss" with
    | error e => simp only [h1] at hrest; exact absurd hrest (by simp)
    | ok rss =>
    simp only [h1] at hrest
    cases h2 : subscriptE rss "channel" with
    | error e => simp only [h2] at hrest; exact absurd hrest (by simp)
    | ok ch =>
    simp only [h2] at hrest
    cases h3 : subscriptE ch "itunes:image" with
    | error e => simp only [h3] at hrest; exact absurd hrest (by simp)
    | ok im =>
    simp only [h3] at hrest
    cases h4 : subscriptE im "@href" with
    | error e => simp only [h4] at hrest; exact absurd hrest (by simp)
    | ok href =>
    simp only [h4] at hrest
    cases h5 : asStrE href with
    | error e => simp only [h5] at hrest; exact absurd hrest (by simp)
    | ok cu =>
    simp only [h5] at hrest
    cases h6 : download_and_resize_cover_image E.http E.decodeImg E.encodeImg
        E.encodeImgSmall config.output_dir cu fs with
    | error e => simp only [h6] at hrest; exact absurd hrest (by simp)
    | ok trip =>
    simp only [h6] at hrest
    simp only [render_episodes, Except.ok.injEq] at hrest
    rw [← hrest]
    exact ⟨rfl, rfl⟩

/-- Witness for C3: a feed mixing a well-formed enclosure item with an
enclosure item lacking its title makes the whole run proceed with zero
episodes (the well-formed item is dropped too, not just the malformed
one), completing successfully. -/
theorem make_site_swallows_keyError_witness :
    (make_site libsBad cfg1 [] = site_rest libsBad cfg1 (process_episodes mdId feedBad).1 [] []
      ∧ (∀ out, site_rest libsBad cfg1 (process_episodes mdId feedBad).1 [] []
          = Except.ok out → out.episodes = [] ∧ out.audioLog = []))
    ∧ runOk (make_site libsBad cfg1 []) = true
    ∧ runEpisodes (make_site libsBad cfg1 []) = some [] :=
  ⟨make_site_swallows_keyError libsBad cfg1 [] feedBad
    (process_episodes mdId feedBad).1 (by rfl) (by rfl), by rfl, by rfl⟩

/-! ### C10 — missing item list degrades, missing channel crashes -/

/-- Counterexample to C10: on a feed whose channel path is entirely
absent the run fails with the uncaught missing-key error raised while
evaluating the cover-art URL argument (line 44 of the source, outside the
`try`), so the sitemap and front page are never rendered. -/
theorem make_site_missing_channel_counterexample :
    make_site libsNoChan cfg1 [] = Except.error RunErr.keyError := by rfl

/-- C10 amended: when only the item list is missing — the channel and its
`itunes:image`/`@href` being present, and the cover art already on disk —
the pipeline does not fail: it completes with an empty episode set,
downloads no audio, and still renders the sitemap and the front page.
(When the channel path itself is absent, the cover-art lookup raises an
uncaught missing-key error before any rendering.) -/
theorem make_site_missing_items (E : Libs) (config : Config) (fs : FS)
    (podcast rss ch im : JVal) (cu : String)
    (hparse : download_and_parse_feed E.http E.parseXml config.feed_URL
      = Except.ok podcast)
    (hrss : JVal.get podcast "rss" = some rss)
    (hch : JVal.get rss "channel" = some ch)
    (hitem : JVal.get ch "item" = none)
    (him : JVal.get ch "itunes:image" = some im)
    (hhref : JVal.get im "@href" = some (JVal.str cu))
    (hcover : FS.existsP fs (osJoin config.output_dir "cover_art.jpg") = true) :
    ∃ out, make_site E config fs = Except.ok out
      ∧ out.episodes = [] ∧ out.audioLog = []
      ∧ FS.get out.fs (osJoin config.output_dir "sitemap.xml")
          = some (E.sitemapTpl config [])
      ∧ FS.get out.fs (osJoin config.output_dir "index.html")
          = some (E.frontTpl config [] podcast) := by
  have hitemE : subscriptE ch "item" = Except.error RunErr.keyError := by
    cases ch with
    | obj cf =>
      simp only [JVal.get] at hitem
      simp [subscriptE, hitem]
    | str s => simp [JVal.get] at him
    | arr xs => simp [JVal.get] at him
  have hproc : process_episodes E.md podcast = (podcast, Except.error RunErr.keyError) := by
    unfold process_episodes
    simp only [subscriptE_of_get hrss, subscriptE_of_get hch, hitemE]
  have hsite : make_site E config fs = site_rest E config podcast [] fs := by
    unfold make_site
    simp only [hparse, hproc]
  have hcoverE : download_and_resize_cover_image E.http E.decodeImg E.encodeImg
      E.encodeImgSmall config.output_dir cu fs = Except.ok (fs, [], none) := by
    unfold download_and_resize_cover_image
    rw [if_pos hcover]
  have hrest : site_rest E config podcast [] fs = Except.ok
      ⟨render_front_page E.frontTpl config [] podcast
        (render_sitemap E.sitemapTpl config [] fs), [], [], []⟩ := by
    unfold site_rest
    simp only [download_audio_files, subscriptE_of_get hrss, subscriptE_of_get hch,
      subscriptE_of_get him, subscriptE_of_get hhref, asStrE, hcoverE, render_episodes]
  refine ⟨_, hsite.trans hrest, rfl, rfl, ?_, ?_⟩
  · show FS.get (FS.write (FS.write fs (osJoin config.output_dir "sitemap.xml")
      (E.sitemapTpl config [])) (osJoin config.output_dir "index.html")
      (E.frontTpl config [] podcast)) (osJoin config.output_dir "sitemap.xml")
      = some (E.sitemapTpl config [])
    rw [FS.get_write_ne _ _ _ _ (osJoin_ne_of_len config.output_dir (by rfl) (by rfl)
      (by decide)), FS.get_write_self]
  · exact FS.get_write_self _ _ _

/-- Witness for the amended C10: on the fixture feed without an item list
and with the cover art pre-downloaded, the run completes, reports no
episodes and no audio GETs, and the sitemap and front page are freshly
rendered. -/
theorem make_site_missing_items_witness :
    ∃ out, make_site libsNoItems cfg1 [(osJoin "out" "cover_art.jpg", "art")]
        = Except.ok out
      ∧ out.episodes = [] ∧ out.audioLog = []
      ∧ FS.get out.fs (osJoin cfg1.output_dir "sitemap.xml")
          = some (libs1.sitemapTpl cfg1 [])
      ∧ FS.get out.fs (osJoin cfg1.output_dir "index.html")
          = some (libs1.frontTpl cfg1 [] feedNoItems) :=
  make_site_missing_items libsNoItems cfg1 [(osJoin "out" "cover_art.jpg", "art")]
    feedNoItems (JVal.obj [("channel", JVal.obj [("itunes:image",
      JVal.obj [("@href", JVal.str "https://cdn.example/cover.jpg")])])])
    (JVal.obj [("itunes:image", JVal.obj [("@href", JVal.str "https://cdn.example/cover.jpg")])])
    (JVal.obj [("@href", JVal.str "https://cdn.example/cover.jpg")])
    "https://cdn.example/cover.jpg" (by rfl) (by rfl) (by rfl) (by rfl) (by rfl)
    (by rfl) (by rfl)
